import Mathlib

set_option linter.unusedVariables false

/-!
Shallow embedding of the rustfuck optimizing Brainfuck compiler
(src/compile.rs) and bytecode interpreter (src/execute.rs), together with
the library surface from src/lib.rs.

Modelling conventions:
* machine integers become `Nat` (`u8`, `u32`, `usize`) or `Int` (`i32`,
  `i64`) with explicit wrapping (`% 256`) and range checks exactly where
  the source performs them;
* the source text is a list of byte values (`List Nat`);
* Rust's panicking slice indexing is made explicit: an out-of-bounds
  access yields the distinguished result `panic`;
* the interpreter's `while` loop, which the source does not bound, takes
  an explicit fuel parameter; exhausting it yields `outOfFuel`, an
  artifact of the embedding (the compiler's loop is bounded by the input
  length, so its fuel of `source.length + 1` never runs out);
* streams: the reader becomes the list of bytes not yet consumed, the
  writer the list of bytes emitted so far; with pure list streams the
  `IoError` case of the source can never fire.
-/

namespace Rustfuck

/-- Wrap-around `u8` arithmetic: reduce modulo 256 (`wrapping_add`,
`wrapping_mul` compositions are expressed through this). -/
def wrap8 (n : Nat) : Nat := n % 256

/-- Model of `i32::checked_add`: the mathematical sum if it fits in a
signed 32-bit integer, `none` on overflow. -/
def checked_add_i32 (a b : Int) : Option Int :=
  if -(2 ^ 31) ≤ a + b ∧ a + b < 2 ^ 31 then some (a + b) else none

/-- Model of `usize::MAX` on a 64-bit target (used by
`config.op_limit.unwrap_or(usize::MAX)`). -/
def USIZE_MAX : Nat := 2 ^ 64 - 1

/-- Source-location record (src/lib.rs `Span`).  The field `stop` is the
Rust field `end`, which is a reserved word in Lean. -/
structure Span where
  start : Nat
  stop : Nat
  line : Nat
  col : Nat
deriving DecidableEq, Repr

/-- Bytecode instruction (src/lib.rs `Op`). -/
inductive Op where
  | Add (n : Nat)
  | Move (d : Int)
  | Out
  | In
  | Open (j : Nat)
  | Close (j : Nat)
  | Set (n : Nat)
  | Mul (off : Int) (f : Nat)
  | Scan (s : Int)
deriving DecidableEq, Repr

/-- Compilation error (src/lib.rs `CompileError`). -/
inductive CompileError where
  | UnmatchedOpen (span : Span)
  | UnmatchedClose (span : Span)
deriving DecidableEq, Repr

/-- Runtime error (src/lib.rs `ExecutionError`).  The `source` payload of
`IoError` is dropped: with pure list streams no I/O failure can occur and
the constructor is never produced by the embedding. -/
inductive ExecutionError where
  | PointerUnderflow (span : Span)
  | PointerOverflow (span : Span) (pointer : Nat) (tape_len : Nat)
  | OperationLimit (span : Span)
  | IoError (span : Span)
deriving DecidableEq, Repr

/-- Behavior when input reaches EOF (src/lib.rs `EofBehavior`). -/
inductive EofBehavior where
  | Zero
  | Unchanged
  | MaxValue
deriving DecidableEq, Repr

/-- Configuration for program execution (src/lib.rs `Config`). -/
structure Config where
  tape_size : Nat
  op_limit : Option Nat
  eof_behavior : EofBehavior
  flush_output : Bool
deriving DecidableEq, Repr

/-- State of the machine after execution (src/lib.rs `ExecutionResult`). -/
structure ExecutionResult where
  tape : List Nat
  pointer : Nat
deriving DecidableEq, Repr

/-- A compiled program (src/lib.rs `Program`). -/
structure Program where
  ops : List Op
  spans : List Span
deriving DecidableEq, Repr

/-- Decidable equality for `Except` results, so that concrete
compilation outcomes can be checked by `decide`. -/
instance instDecEqExcept {ε α : Type} [DecidableEq ε] [DecidableEq α] :
    DecidableEq (Except ε α) := fun a b =>
  match a, b with
  | .error e, .error f => decidable_of_iff (e = f) (by simp)
  | .ok x, .ok y => decidable_of_iff (x = y) (by simp)
  | .error _, .ok _ => .isFalse (by simp)
  | .ok _, .error _ => .isFalse (by simp)

/-- Appends an op and compacts it with the previous op where possible
(src/compile.rs `push_and_compact`).  The Rust `Some(0) / Some(sum)`
pattern pair on `checked_add` is rendered as a `some sum` match followed
by a zero test, which selects the same branches. -/
def push_and_compact (ops : List Op) (spans : List Span) (op : Op) (span : Span) :
    List Op × List Span :=
  match ops.getLast?, spans.getLast?, op with
  | some (.Add a), some s, .Add b =>
      let sum := wrap8 (a + b)
      if sum = 0 then (ops.dropLast, spans.dropLast)
      else (ops.dropLast ++ [.Add sum], spans.dropLast ++ [{ s with stop := span.stop }])
  | some (.Move a), some s, .Move b =>
      match checked_add_i32 a b with
      | some sum =>
          if sum = 0 then (ops.dropLast, spans.dropLast)
          else (ops.dropLast ++ [.Move sum], spans.dropLast ++ [{ s with stop := span.stop }])
      | none => (ops ++ [.Move b], spans ++ [span])
  | some (.Set _), some s, .Set b =>
      (ops.dropLast ++ [.Set b], spans.dropLast ++ [{ s with stop := span.stop }])
  | some (.Set a), some s, .Add b =>
      (ops.dropLast ++ [.Set (wrap8 (a + b))], spans.dropLast ++ [{ s with stop := span.stop }])
  | some (.Add _), some s, .Set b =>
      (ops.dropLast ++ [.Set b], spans.dropLast ++ [{ s with stop := span.stop }])
  | _, _, _ => (ops ++ [op], spans ++ [span])

/-- Loop of src/compile.rs `try_mul_loop`: walks the body accumulating
the running pointer offset, the collected `(offset, factor)` pairs, and
the wrapping delta applied to the origin cell. -/
def try_mul_loop_go : List Op → Int → List (Int × Nat) → Nat → Option (List (Int × Nat))
  | [], offset, muls, origin_delta =>
      if offset = 0 ∧ origin_delta = 255 then some muls else none
  | .Add n :: rest, offset, muls, origin_delta =>
      if offset = 0 then try_mul_loop_go rest offset muls (wrap8 (origin_delta + n))
      else try_mul_loop_go rest offset (muls ++ [(offset, n)]) origin_delta
  | .Move n :: rest, offset, muls, origin_delta =>
      try_mul_loop_go rest (offset + n) muls origin_delta
  | _, _, _, _ => none

/-- Checks for multiplication loops (src/compile.rs `try_mul_loop`). -/
def try_mul_loop (ops : List Op) : Option (List (Int × Nat)) :=
  try_mul_loop_go ops 0 [] 0

/-- Loop of src/compile.rs `skip_loop`, with a structural fuel bound on
the iteration count (the call site passes `source.length`, which always
suffices since `i` advances each iteration). -/
def skip_loop_go (source : List Nat) (fuel depth i lines col : Nat) : Nat × Nat × Nat :=
  match fuel with
  | 0 => (i, lines, col)
  | fuel + 1 =>
    if i < source.length ∧ 0 < depth then
      let c := source.getD i 0
      let depth2 := if c = 91 then depth + 1 else if c = 93 then depth - 1 else depth
      let lines2 := if c = 10 then lines + 1 else lines
      let col2 := (if c = 10 then 0 else col) + 1
      skip_loop_go source fuel depth2 (i + 1) lines2 col2
    else (i, lines, col)

/-- Skips past a loop; returns (new position, lines skipped, final column
offset) (src/compile.rs `skip_loop`). -/
def skip_loop (source : List Nat) (start : Nat) : Nat × Nat × Nat :=
  skip_loop_go source source.length 1 start 0 0

/-- Dead-loop test at a `[` (src/compile.rs line 136): the previous op
guarantees the current cell is zero. -/
def is_dead (ops : List Op) : Bool :=
  match ops.getLast? with
  | some (.Set 0) => true
  | some (.Close _) => true
  | some (.Scan _) => true
  | _ => false

/-- General-loop fallthrough of the `]` handler (src/compile.rs lines
199-202): back-patch the placeholder `Open(0)` at `start` to the index
the matching `Close` will occupy, then append that `Close`. -/
def close_general (ops : List Op) (spans : List Span) (start : Nat) (loop_span : Span) :
    List Op × List Span :=
  (ops.set start (.Open ops.length) ++ [.Close start], spans ++ [loop_span])

/-- Handler for a `]` whose matching `[` produced ops index `start`
(src/compile.rs lines 153-203): multiplication-loop recognition, then
scan-loop, then odd-add clear-loop, then the general back-patch. -/
def close_loop (ops : List Op) (spans : List Span) (start : Nat) (loop_span : Span) :
    List Op × List Span :=
  match try_mul_loop (ops.drop (start + 1)) with
  | some muls =>
      push_and_compact (ops.take start ++ muls.map fun m => Op.Mul m.1 m.2)
        (spans.take start ++ muls.map fun _ => loop_span) (.Set 0) loop_span
  | none =>
      if ops.length = start + 2 then
        match ops.getLast? with
        | some (.Move n) =>
            (ops.dropLast.dropLast ++ [.Scan n], spans.dropLast.dropLast ++ [loop_span])
        | some (.Add n) =>
            if n % 2 = 1 then
              push_and_compact ops.dropLast.dropLast spans.dropLast.dropLast (.Set 0) loop_span
            else close_general ops spans start loop_span
        | _ => close_general ops spans start loop_span
      else close_general ops spans start loop_span

/-- Main compilation loop (src/compile.rs `compile`), fuelled.  State:
emitted ops and spans, the pending-`[` stack (head = top, holding the
ops index and the `[` span), the byte position `i`, and the 1-based
`line`/`col` counters.  Byte values: 43 `+`, 45 `-`, 60 `<`, 62 `>`,
46 `.`, 44 `,`, 91 `[`, 93 `]`, 10 newline. -/
def compile_go (source : List Nat) (fuel : Nat) (ops : List Op) (spans : List Span)
    (loop_stack : List (Nat × Span)) (i line col : Nat) :
    Option (Except CompileError (List Op × List Span)) :=
  match fuel with
  | 0 => none
  | fuel + 1 =>
    if i < source.length then
      let span : Span := ⟨i, i + 1, line, col⟩
      let c := source.getD i 0
      if c = 43 then
        let r := push_and_compact ops spans (.Add 1) span
        compile_go source fuel r.1 r.2 loop_stack (i + 1) line (col + 1)
      else if c = 45 then
        let r := push_and_compact ops spans (.Add 255) span
        compile_go source fuel r.1 r.2 loop_stack (i + 1) line (col + 1)
      else if c = 60 then
        let r := push_and_compact ops spans (.Move (-1)) span
        compile_go source fuel r.1 r.2 loop_stack (i + 1) line (col + 1)
      else if c = 62 then
        let r := push_and_compact ops spans (.Move 1) span
        compile_go source fuel r.1 r.2 loop_stack (i + 1) line (col + 1)
      else if c = 46 then
        compile_go source fuel (ops ++ [.Out]) (spans ++ [span]) loop_stack (i + 1) line (col + 1)
      else if c = 44 then
        compile_go source fuel (ops ++ [.In]) (spans ++ [span]) loop_stack (i + 1) line (col + 1)
      else if c = 91 then
        if is_dead ops then
          let r := skip_loop source (i + 1)
          compile_go source fuel ops spans loop_stack r.1 (line + r.2.1)
            (if 0 < r.2.1 then r.2.2 else col + r.2.2)
        else
          compile_go source fuel (ops ++ [.Open 0]) (spans ++ [span])
            ((ops.length, span) :: loop_stack) (i + 1) line (col + 1)
      else if c = 93 then
        match loop_stack with
        | [] => some (.error (.UnmatchedClose span))
        | (start, loop_start_span) :: rest =>
          let loop_span : Span :=
            ⟨loop_start_span.start, i + 1, loop_start_span.line, loop_start_span.col⟩
          let r := close_loop ops spans start loop_span
          compile_go source fuel r.1 r.2 rest (i + 1) line (col + 1)
      else if c = 10 then
        compile_go source fuel ops spans loop_stack (i + 1) (line + 1) 1
      else
        compile_go source fuel ops spans loop_stack (i + 1) line (col + 1)
    else
      match loop_stack with
      | (_, sp) :: _ => some (.error (.UnmatchedOpen sp))
      | [] => some (.ok (ops, spans))

/-- Compiles source code (src/compile.rs `compile`).  The fuel
`source.length + 1` always suffices: every loop iteration advances `i`
by at least one, so the `none` (out-of-fuel) case is unreachable. -/
def compile (source : List Nat) : Option (Except CompileError (List Op × List Span)) :=
  compile_go source (source.length + 1) [] [] [] 0 1 1

/-- Byte values of an ASCII source string. -/
def bytesOf (s : String) : List Nat := s.data.map Char.toNat

/-- Compiles source code into a program (src/lib.rs
`Program::from_source`). -/
def Program.from_source (source : List Nat) : Option (Except CompileError Program) :=
  match compile source with
  | none => none
  | some (.error e) => some (.error e)
  | some (.ok (ops, spans)) => some (.ok ⟨ops, spans⟩)

/-- Result of executing a single bytecode instruction.  `panic` stands
for Rust's out-of-bounds slice indexing; `diverge` marks the one place
the source can loop forever inside a single op (`Scan(0)` on a nonzero
cell). -/
inductive StepResult where
  | ok (tape : List Nat) (pointer : Nat) (ip : Nat)
      (input : Option (List Nat)) (output : Option (List Nat))
  | err (e : ExecutionError)
  | panic
  | diverge
deriving DecidableEq, Repr

/-- Result of a full execution.  `outOfFuel` is an artifact of the
fuelled embedding of the unbounded interpreter loop. -/
inductive RunResult where
  | ok (r : ExecutionResult) (output : Option (List Nat))
  | err (e : ExecutionError)
  | panic
  | diverge
  | outOfFuel
deriving DecidableEq, Repr

/-- Outcome of the general scan loops in src/execute.rs. -/
inductive ScanRes where
  | ok (p : Nat)
  | underflow
  | panic
  | spin
deriving DecidableEq, Repr

/-- Position of the first zero cell at or after `start` (`memchr(0,
&tape[pointer..])` shifted back to a tape index). -/
def firstZeroFrom (tape : List Nat) (start : Nat) : Option Nat :=
  match (tape.drop start).findIdx? (· = 0) with
  | some i => some (start + i)
  | none => none

/-- Position of the last zero cell at or before `p` (`memrchr(0,
&tape[..=pointer])`). -/
def lastZeroUpTo (tape : List Nat) (p : Nat) : Option Nat :=
  match (tape.take (p + 1)).reverse.findIdx? (· = 0) with
  | some i => some (p - i)
  | none => none

/-- General positive-stride scan loop (src/execute.rs lines 113-117):
`while p < tape_len && tape[p] != 0 { p += step }`, returning the final
`p`.  Fuelled; `none` is unreachable for `step ≥ 1` at the fuel used. -/
def scan_pos_go (tape : List Nat) (step : Nat) : Nat → Nat → Option Nat
  | 0, _ => none
  | fuel + 1, p =>
    if p < tape.length ∧ tape.getD p 0 ≠ 0 then scan_pos_go tape step fuel (p + step)
    else some p

/-- General negative-stride scan loop (src/execute.rs lines 127-134):
`while tape[p] != 0 { if p < step { return PointerUnderflow } p -= step }`.
The read `tape[p]` panics when `p` is out of bounds; `spin` (fuel
exhausted) is unreachable for `step ≥ 1` at the fuel used, and for
`step = 0` it models the genuine infinite loop of the source. -/
def scan_neg_go (tape : List Nat) (step : Nat) : Nat → Nat → ScanRes
  | 0, _ => .spin
  | fuel + 1, p =>
    if p < tape.length then
      if tape.getD p 0 ≠ 0 then
        if p < step then .underflow
        else scan_neg_go tape step fuel (p - step)
      else .ok p
    else .panic

/-- Execution of one bytecode instruction at instruction pointer `ip`
(the body of the `match` in src/execute.rs `execute`).  The tape length
never changes, so the source's pre-computed `tape_len` is read as
`tape.length`. -/
def step (op : Op) (span : Span) (tape : List Nat) (pointer : Nat) (ip : Nat)
    (input : Option (List Nat)) (output : Option (List Nat)) (config : Config) : StepResult :=
  match op with
  | .Add n =>
      if pointer < tape.length then
        .ok (tape.set pointer (wrap8 (tape.getD pointer 0 + n))) pointer ip input output
      else .panic
  | .Move d =>
      let new_ptr : Int := (pointer : Int) + d
      if new_ptr < 0 then .err (.PointerUnderflow span)
      else if tape.length ≤ new_ptr.toNat then
        .err (.PointerOverflow span new_ptr.toNat tape.length)
      else .ok tape new_ptr.toNat ip input output
  | .Out =>
      match output with
      | none => .ok tape pointer ip input output
      | some out =>
          if pointer < tape.length then
            .ok tape pointer ip input (some (out ++ [tape.getD pointer 0]))
          else .panic
  | .In =>
      match input with
      | none => .ok tape pointer ip input output
      | some [] =>
          match config.eof_behavior with
          | .Zero =>
              if pointer < tape.length then .ok (tape.set pointer 0) pointer ip input output
              else .panic
          | .Unchanged => .ok tape pointer ip input output
          | .MaxValue =>
              if pointer < tape.length then .ok (tape.set pointer 255) pointer ip input output
              else .panic
      | some (b :: rest) =>
          if pointer < tape.length then .ok (tape.set pointer b) pointer ip (some rest) output
          else .panic
  | .Open j =>
      if pointer < tape.length then
        if tape.getD pointer 0 = 0 then .ok tape pointer j input output
        else .ok tape pointer ip input output
      else .panic
  | .Close j =>
      if pointer < tape.length then
        if tape.getD pointer 0 ≠ 0 then .ok tape pointer j input output
        else .ok tape pointer ip input output
      else .panic
  | .Set n =>
      if pointer < tape.length then .ok (tape.set pointer n) pointer ip input output
      else .panic
  | .Mul off f =>
      let target : Int := (pointer : Int) + off
      if target < 0 then .err (.PointerUnderflow span)
      else if tape.length ≤ target.toNat then
        .err (.PointerOverflow span target.toNat tape.length)
      else if pointer < tape.length then
        let t := target.toNat
        .ok (tape.set t (wrap8 (tape.getD t 0 + wrap8 (tape.getD pointer 0 * f))))
          pointer ip input output
      else .panic
  | .Scan s =>
      if s = 1 then
        if pointer ≤ tape.length then
          match firstZeroFrom tape pointer with
          | some j => .ok tape j ip input output
          | none => .err (.PointerOverflow span tape.length tape.length)
        else .panic
      else if s = -1 then
        if pointer < tape.length then
          match lastZeroUpTo tape pointer with
          | some j => .ok tape j ip input output
          | none => .err (.PointerUnderflow span)
        else .panic
      else if 0 < s then
        match scan_pos_go tape s.toNat (tape.length + 2) pointer with
        | none => .diverge
        | some p =>
            if tape.length ≤ p then .err (.PointerOverflow span p tape.length)
            else .ok tape p ip input output
      else
        match scan_neg_go tape (-s).toNat (pointer + 2) pointer with
        | .spin => .diverge
        | .panic => .panic
        | .underflow => .err (.PointerUnderflow span)
        | .ok p => .ok tape p ip input output

/-- Main interpreter loop (src/execute.rs `execute`), fuelled.  After
each executed op, `ip` advances by one past any jump target, the dynamic
op counter increases, and the operation budget is checked. -/
def execute_go (ops : List Op) (spans : List Span) (config : Config) (fuel : Nat)
    (tape : List Nat) (pointer ip opcount : Nat) (input output : Option (List Nat)) :
    RunResult :=
    if h : ip < ops.length then
      match spans[ip]? with
      | none => .panic
      | some span =>
        match fuel with
        | 0 => .outOfFuel
        | fuel + 1 =>
          match step (ops.get ⟨ip, h⟩) span tape pointer ip input output config with
          | .panic => .panic
          | .diverge => .diverge
          | .err e => .err e
          | .ok tape2 pointer2 ip2 input2 output2 =>
            if config.op_limit.getD USIZE_MAX < opcount + 1 then
              .err (.OperationLimit span)
            else
              execute_go ops spans config fuel tape2 pointer2 (ip2 + 1) (opcount + 1)
                input2 output2
    else .ok ⟨tape, pointer⟩ output

/-- Interpreter entry point (src/execute.rs `execute`). -/
def execute (ops : List Op) (spans : List Span) (tape : List Nat) (pointer : Nat)
    (config : Config) (input : Option (List Nat)) (output : Option (List Nat))
    (fuel : Nat) : RunResult :=
  execute_go ops spans config fuel tape pointer 0 0 input output

/-- Runs the program with the given configuration (src/lib.rs
`Program::run`): defaults are a zero-filled tape of length
`config.tape_size` and pointer zero. -/
def Program.run (p : Program) (config : Config) (tape : Option (List Nat))
    (pointer : Option Nat) (input : Option (List Nat)) (output : Option (List Nat))
    (fuel : Nat) : RunResult :=
  execute p.ops p.spans (tape.getD (List.replicate config.tape_size 0)) (pointer.getD 0)
    config input output fuel

/-!
Reference definitions written from the specification's words.  They are
deliberately independent of the source-derived functions above and are
used only to state and compare properties claimed by the spec.
-/

/-- Property claimed of every op the compiler emits: it is not `Add(0)`,
`Move(0)` or `Scan(0)`. -/
def GoodOp (op : Op) : Prop :=
  op ≠ .Add 0 ∧ op ≠ .Move 0 ∧ op ≠ .Scan 0

/-- The five tail/new combinations for which the spec's compaction table
prescribes a rewrite; every other combination is claimed to append the
new op unchanged. -/
def compactable : Op → Op → Bool
  | .Add _, .Add _ => true
  | .Move _, .Move _ => true
  | .Set _, .Set _ => true
  | .Set _, .Add _ => true
  | .Add _, .Set _ => true
  | _, _ => false

/-- Ops subject to peephole compaction. -/
def is_arith : Op → Bool
  | .Add _ => true
  | .Move _ => true
  | .Set _ => true
  | _ => false

/-- Ops that are not jump instructions (no `Open`, no `Close`). -/
def not_jump (op : Op) : Prop :=
  (∀ j, op ≠ .Open j) ∧ (∀ j, op ≠ .Close j)

/-- Test from the multiplication-loop claim: every op of the loop body is
an `Add` or a `Move`. -/
def all_add_move (body : List Op) : Bool :=
  body.all fun op =>
    match op with
    | .Add _ => true
    | .Move _ => true
    | _ => false

/-- Net pointer offset across a loop body, per the spec's words. -/
def net_offset : List Op → Int
  | [] => 0
  | .Move d :: rest => d + net_offset rest
  | _ :: rest => net_offset rest

/-- Net wrapping arithmetic delta applied to the origin cell of a loop
body, per the spec's words: sum (mod 256) of the `Add` amounts performed
while the running offset is zero. -/
def origin_delta_ref : List Op → Int → Nat → Nat
  | [], _, acc => acc
  | .Add n :: rest, off, acc => origin_delta_ref rest off (if off = 0 then wrap8 (acc + n) else acc)
  | .Move d :: rest, off, acc => origin_delta_ref rest (off + d) acc
  | _ :: rest, off, acc => origin_delta_ref rest off acc

/-- The `(offset, factor)` pairs the multiplication-loop claim says are
emitted: one per non-origin `Add` of the body, in the order those `Add`s
appear (not aggregated by offset). -/
def mul_pairs_ref : List Op → Int → List (Int × Nat)
  | [], _ => []
  | .Add n :: rest, off => if off = 0 then mul_pairs_ref rest off else (off, n) :: mul_pairs_ref rest off
  | .Move d :: rest, off => mul_pairs_ref rest (off + d)
  | _ :: rest, off => mul_pairs_ref rest off

/-- Descent predicate from the negative-stride scan claim: starting at
`p` and repeatedly subtracting `step`, a nonzero cell at a position below
`step` is reached before any zero cell.  Fuelled; `p + 1` steps suffice
whenever `step ≥ 1`. -/
def hits_underflow_go (tape : List Nat) (step : Nat) : Nat → Nat → Bool
  | 0, _ => false
  | fuel + 1, p =>
    if tape.getD p 0 = 0 then false
    else if p < step then true
    else hits_underflow_go tape step fuel (p - step)

/-- Wrapper for `hits_underflow_go` with sufficient fuel. -/
def hits_underflow (tape : List Nat) (step p : Nat) : Bool :=
  hits_underflow_go tape step (p + 1) p

/-- Reference bracket scanner from the unmatched-`]` claim: scanning the
raw input with a depth counter (`[` increments, `]` decrements), report
the first `]` encountered at depth zero. -/
def ref_close_go (source : List Nat) (depth i : Nat) : Option Nat :=
  if i < source.length then
    let c := source.getD i 0
    if c = 91 then ref_close_go source (depth + 1) (i + 1)
    else if c = 93 then
      if depth = 0 then some i else ref_close_go source (depth - 1) (i + 1)
    else ref_close_go source depth (i + 1)
  else none
termination_by source.length - i

/-- Position of the first `]` with no pending `[`, per the claim's
words. -/
def ref_unmatched_close (source : List Nat) : Option Nat :=
  ref_close_go source 0 0

/-- Reference column computation from the line/column claim: `col`
starts at 1, every byte advances it by one, and a newline resets it so
the following byte has column 1. -/
def ref_col_go : List Nat → Nat → Nat
  | [], col => col
  | b :: rest, col => ref_col_go rest (if b = 10 then 1 else col + 1)

/-- Column (per plain per-byte counting) of the byte at index `k`. -/
def ref_col (source : List Nat) (k : Nat) : Nat :=
  ref_col_go (source.take k) 1

/-- Frame property claimed for a single executed instruction: which
parts of the machine state (tape cells, data pointer) the op may touch.
`Add`, `Set` and `In` may modify only the cell under the pointer and
leave the pointer fixed; `Mul(off, _)` may modify only the cell at
`pointer + off` and leaves the pointer fixed; `Out`, `Open` and `Close`
modify neither tape nor pointer; `Move` and `Scan` may move the pointer
but never write the tape. -/
def frame_ok (op : Op) (tape : List Nat) (pointer : Nat) (tape2 : List Nat)
    (pointer2 : Nat) : Prop :=
  match op with
  | .Add _ | .Set _ | .In =>
      pointer2 = pointer ∧ ∀ k, k ≠ pointer → tape2[k]? = tape[k]?
  | .Mul off _ =>
      pointer2 = pointer ∧ ∀ k, k ≠ ((pointer : Int) + off).toNat → tape2[k]? = tape[k]?
  | .Out | .Open _ | .Close _ => tape2 = tape ∧ pointer2 = pointer
  | .Move _ | .Scan _ => tape2 = tape

/-- Ops indices held by the pending-loop stack. -/
def stack_indices (stack : List (Nat × Span)) : List Nat :=
  stack.map Prod.fst

/-- Invariant of the compiler state: spans stay in lockstep with ops,
the pending-`[` stack is strictly decreasing from its top and points at
placeholder `Open 0` entries, every finished `Open`/`Close` pair is
mutually consistent and does not straddle a pending index, and no zero
`Add`/`Move`/`Scan` is ever present. -/
structure CInv (ops : List Op) (spans : List Span) (stack : List (Nat × Span)) : Prop where
  len_eq : ops.length = spans.length
  sorted : stack.Pairwise fun a b => b.1 < a.1
  stack_open : ∀ pr ∈ stack, ops[pr.1]? = some (.Open 0)
  open_pair : ∀ i j, ops[i]? = some (.Open j) → i ∉ stack_indices stack →
    i < j ∧ ops[j]? = some (.Close i) ∧ ∀ k ∈ stack_indices stack, k < i ∨ j < k
  close_pair : ∀ i j, ops[i]? = some (.Close j) →
    j < i ∧ ops[j]? = some (.Open i) ∧ j ∉ stack_indices stack
  good : ∀ op ∈ ops, GoodOp op

/-!
Theorems.  Each claim of the specification review is settled by exactly
one theorem below (plus a witness or counterexample where required).
-/

/-- C3 (counterexample): the claim asserts that running the program
compiled from `[->+<]` on tape `[10, 0]`, pointer 0, with `op_limit =
30` fails with `OperationLimit`.  In fact the compiler rewrites the loop
into `Mul(1,1), Set(0)` — two ops — so the run finishes well inside the
budget and already yields the final tape `[0, 10]`. -/
theorem mul_loop_within_op_limit :
    Program.from_source (bytesOf "[->+<]") =
      some (.ok ⟨[.Mul 1 1, .Set 0], [⟨0, 6, 1, 1⟩, ⟨0, 6, 1, 1⟩]⟩) ∧
    Program.run ⟨[.Mul 1 1, .Set 0], [⟨0, 6, 1, 1⟩, ⟨0, 6, 1, 1⟩]⟩
      ⟨30000, some 30, .Zero, true⟩ (some [10, 0]) (some 0) none none 10 =
      .ok ⟨[0, 10], 0⟩ none := by decide

/-- C3 (amended): the program compiled from `[->+<]` on tape `[10, 0]`,
pointer 0, succeeds with final tape `[0, 10]` under `op_limit = 30` as
well as under `op_limit = 100`; the `OperationLimit` failure at budget
30 belongs to the unoptimized instruction sequence `Open(5), Add(255),
Move(1), Add(1), Move(-1), Close(0)` (the hand-written ops of the
interpreter's own test), not to the compiled program. -/
theorem op_limit_scenario_amended :
    Program.from_source (bytesOf "[->+<]") =
      some (.ok ⟨[.Mul 1 1, .Set 0], [⟨0, 6, 1, 1⟩, ⟨0, 6, 1, 1⟩]⟩) ∧
    Program.run ⟨[.Mul 1 1, .Set 0], [⟨0, 6, 1, 1⟩, ⟨0, 6, 1, 1⟩]⟩
      ⟨30000, some 100, .Zero, true⟩ (some [10, 0]) (some 0) none none 10 =
      .ok ⟨[0, 10], 0⟩ none ∧
    execute [.Open 5, .Add 255, .Move 1, .Add 1, .Move (-1), .Close 0]
      (List.replicate 6 ⟨0, 0, 0, 0⟩) [10, 0] 0 ⟨30000, some 30, .Zero, true⟩ none none 60 =
      .err (.OperationLimit ⟨0, 0, 0, 0⟩) := by decide

/-- C4: line/column tracking across dead-loop elision is off by one
column when the skipped region contains no newline.  For the source
`,[-][].` the dead loop `[]` at bytes 4-5 is skipped; the next emitted
span (for the `.` at byte 6) carries `col = 6`, whereas ordinary
per-byte counting (`ref_col`) gives column 7 for byte 6: `skip_loop`
counts only the bytes after the dead `[`, and the `continue` path drops
the column advance for the `[` itself. -/
theorem dead_skip_column_off_by_one :
    compile (bytesOf ",[-][].") = some (.ok ([.In, .Set 0, .Out],
      [⟨0, 1, 1, 1⟩, ⟨1, 4, 1, 2⟩, ⟨6, 7, 1, 6⟩])) ∧
    ref_col (bytesOf ",[-][].") 6 = 7 := by decide

/-- C2 (counterexample): the claim asserts `UnmatchedOpen` is returned
exactly when the input ends with an unmatched `[`, including when the
unmatched bracket lies at or after a dead `[`.  The source `,[-][` has
two `[` and one `]`, so it ends with an unmatched `[`; yet the final `[`
is dead (it follows the `Set 0` compiled from `[-]`), `skip_loop`
consumes the rest of the input without finding its `]`, and compilation
succeeds. -/
theorem compile_accepts_unmatched_open :
    compile (bytesOf ",[-][") = some (.ok ([.In, .Set 0],
      [⟨0, 1, 1, 1⟩, ⟨1, 4, 1, 2⟩])) ∧
    (bytesOf ",[-][").count 91 = 2 ∧ (bytesOf ",[-][").count 93 = 1 := by decide

/-- C1 (counterexample): the claim asserts the pointer invariant for
every execution started via `Program::run`, including ones with a
caller-supplied initial tape and pointer.  Supplying pointer 5 on a
3-cell tape to the program compiled from `+` makes the very first
instruction index the tape out of bounds (a Rust panic, `panic` in this
embedding), so the invariant does not hold on entry of that
instruction. -/
theorem run_panics_on_oob_initial_pointer :
    Program.from_source (bytesOf "+") = some (.ok ⟨[.Add 1], [⟨0, 1, 1, 1⟩]⟩) ∧
    Program.run ⟨[.Add 1], [⟨0, 1, 1, 1⟩]⟩ ⟨30000, none, .Zero, true⟩
      (some [0, 0, 0]) (some 5) none none 5 = .panic := by decide

/-- C7: on every append of an `Add`/`Move`/`Set`, `push_and_compact`
applies at most one of exactly the five table rewrites to the tail:
`Add(a)+Add(b)` merges to `Add((a+b) mod 256)` and is dropped when the
wrapped sum is 0; `Move(a)+Move(b)` merges to `Move(a+b)` (dropped when
0) unless the sum overflows signed 32 bits, in which case both ops are
kept separate; `Set(_)+Set(b)` becomes `Set(b)`; `Set(a)+Add(b)` becomes
`Set((a+b) mod 256)`; `Add(_)+Set(b)` becomes `Set(b)`; every other
combination appends the new op unchanged. -/
theorem push_and_compact_rewrites :
    (∀ (ops : List Op) (spans : List Span) (a b : Nat) (s span : Span),
      push_and_compact (ops ++ [.Add a]) (spans ++ [s]) (.Add b) span =
        if wrap8 (a + b) = 0 then (ops, spans)
        else (ops ++ [.Add (wrap8 (a + b))], spans ++ [{ s with stop := span.stop }])) ∧
    (∀ (ops : List Op) (spans : List Span) (d e : Int) (s span : Span),
      -(2 ^ 31) ≤ d + e → d + e < 2 ^ 31 →
      push_and_compact (ops ++ [.Move d]) (spans ++ [s]) (.Move e) span =
        if d + e = 0 then (ops, spans)
        else (ops ++ [.Move (d + e)], spans ++ [{ s with stop := span.stop }])) ∧
    (∀ (ops : List Op) (spans : List Span) (d e : Int) (s span : Span),
      d + e < -(2 ^ 31) ∨ 2 ^ 31 ≤ d + e →
      push_and_compact (ops ++ [.Move d]) (spans ++ [s]) (.Move e) span =
        (ops ++ [.Move d, .Move e], spans ++ [s, span])) ∧
    (∀ (ops : List Op) (spans : List Span) (a b : Nat) (s span : Span),
      push_and_compact (ops ++ [.Set a]) (spans ++ [s]) (.Set b) span =
        (ops ++ [.Set b], spans ++ [{ s with stop := span.stop }])) ∧
    (∀ (ops : List Op) (spans : List Span) (a b : Nat) (s span : Span),
      push_and_compact (ops ++ [.Set a]) (spans ++ [s]) (.Add b) span =
        (ops ++ [.Set (wrap8 (a + b))], spans ++ [{ s with stop := span.stop }])) ∧
    (∀ (ops : List Op) (spans : List Span) (a b : Nat) (s span : Span),
      push_and_compact (ops ++ [.Add a]) (spans ++ [s]) (.Set b) span =
        (ops ++ [.Set b], spans ++ [{ s with stop := span.stop }])) ∧
    (∀ (ops : List Op) (spans : List Span) (op : Op) (span : Span),
      (∀ l, ops.getLast? = some l → compactable l op = false) →
      push_and_compact ops spans op span = (ops ++ [op], spans ++ [span])) := by
  refine ⟨?_, ?_, ?_, ?_, ?_, ?_, ?_⟩
  · intro ops spans a b s span
    unfold push_and_compact
    simp only [List.getLast?_concat, List.dropLast_concat]
  · intro ops spans d e s span h1 h2
    unfold push_and_compact
    simp only [List.getLast?_concat, List.dropLast_concat, checked_add_i32, h1, h2, and_self,
      if_true]
  · intro ops spans d e s span h
    unfold push_and_compact
    have hc : checked_add_i32 d e = none := by
      unfold checked_add_i32
      rcases h with h | h <;> simp <;> omega
    simp only [List.getLast?_concat, hc]
    simp
  · intro ops spans a b s span
    unfold push_and_compact
    simp only [List.getLast?_concat, List.dropLast_concat]
  · intro ops spans a b s span
    unfold push_and_compact
    simp only [List.getLast?_concat, List.dropLast_concat]
  · intro ops spans a b s span
    unfold push_and_compact
    simp only [List.getLast?_concat, List.dropLast_concat]
  · intro ops spans op span h
    unfold push_and_compact
    rcases hl : ops.getLast? with _ | l
    · rcases hs : spans.getLast? with _ | s2 <;> cases op <;> rfl
    · have hc := h l hl
      rcases hs : spans.getLast? with _ | s2
      · cases l <;> cases op <;> rfl
      · cases l <;> cases op <;> simp_all [compactable]

/-- C7 (witness): the overflow arm of the `Move`/`Move` rewrite at a
concrete input: `Move(2^31 - 1)` followed by `Move(1)` is kept as two
separate ops. -/
theorem push_and_compact_rewrites_witness :
    push_and_compact [.Move (2 ^ 31 - 1)] [⟨0, 1, 1, 1⟩] (.Move 1) ⟨1, 2, 1, 2⟩ =
      ([.Move (2 ^ 31 - 1), .Move 1], [⟨0, 1, 1, 1⟩, ⟨1, 2, 1, 2⟩]) := by
  have h := push_and_compact_rewrites.2.2.1 [] [] (2 ^ 31 - 1) 1 ⟨0, 1, 1, 1⟩ ⟨1, 2, 1, 2⟩
    (by right; norm_num)
  simpa using h

/-- C10: frame property of the interpreter.  Whenever a single
instruction executes successfully, `Add(n)`, `Set(n)` and `In` modify at
most the cell under the pointer and leave the pointer unchanged;
`Mul(off, f)` modifies at most the cell at `pointer + off` and leaves
the pointer unchanged; `Out`, `Open(j)` and `Close(j)` modify neither
any tape cell nor the pointer; `Move(d)` and `Scan(s)` may move the
pointer but never modify any tape cell. -/
theorem step_frame_effects (op : Op) (span : Span) (tape : List Nat) (pointer ip : Nat)
    (input output : Option (List Nat)) (config : Config)
    (tape2 : List Nat) (pointer2 ip2 : Nat) (input2 output2 : Option (List Nat))
    (h : step op span tape pointer ip input output config =
      .ok tape2 pointer2 ip2 input2 output2) :
    frame_ok op tape pointer tape2 pointer2 := by
  cases op with
  | Add n =>
      simp only [step] at h
      split at h
      · simp only [StepResult.ok.injEq] at h
        obtain ⟨h1, h2, -, -, -⟩ := h
        exact ⟨h2.symm, fun k hk => by rw [← h1, List.getElem?_set_ne (Ne.symm hk)]⟩
      · exact absurd h (by simp)
  | Set n =>
      simp only [step] at h
      split at h
      · simp only [StepResult.ok.injEq] at h
        obtain ⟨h1, h2, -, -, -⟩ := h
        exact ⟨h2.symm, fun k hk => by rw [← h1, List.getElem?_set_ne (Ne.symm hk)]⟩
      · exact absurd h (by simp)
  | In =>
      simp only [step] at h
      split at h
      · simp only [StepResult.ok.injEq] at h
        obtain ⟨h1, h2, -, -, -⟩ := h
        exact ⟨h2.symm, fun k hk => by rw [← h1]⟩
      · split at h
        · split at h
          · simp only [StepResult.ok.injEq] at h
            obtain ⟨h1, h2, -, -, -⟩ := h
            exact ⟨h2.symm, fun k hk => by rw [← h1, List.getElem?_set_ne (Ne.symm hk)]⟩
          · exact absurd h (by simp)
        · simp only [StepResult.ok.injEq] at h
          obtain ⟨h1, h2, -, -, -⟩ := h
          exact ⟨h2.symm, fun k hk => by rw [← h1]⟩
        · split at h
          · simp only [StepResult.ok.injEq] at h
            obtain ⟨h1, h2, -, -, -⟩ := h
            exact ⟨h2.symm, fun k hk => by rw [← h1, List.getElem?_set_ne (Ne.symm hk)]⟩
          · exact absurd h (by simp)
      · split at h
        · simp only [StepResult.ok.injEq] at h
          obtain ⟨h1, h2, -, -, -⟩ := h
          exact ⟨h2.symm, fun k hk => by rw [← h1, List.getElem?_set_ne (Ne.symm hk)]⟩
        · exact absurd h (by simp)
  | Out =>
      simp only [step] at h
      split at h
      · simp only [StepResult.ok.injEq] at h
        exact ⟨h.1.symm, h.2.1.symm⟩
      · split at h
        · simp only [StepResult.ok.injEq] at h
          exact ⟨h.1.symm, h.2.1.symm⟩
        · exact absurd h (by simp)
  | Move d =>
      simp only [step] at h
      split at h
      · exact absurd h (by simp)
      · split at h
        · exact absurd h (by simp)
        · simp only [StepResult.ok.injEq] at h
          exact h.1.symm
  | Open j =>
      simp only [step] at h
      split at h
      · split at h <;>
          · simp only [StepResult.ok.injEq] at h
            exact ⟨h.1.symm, h.2.1.symm⟩
      · exact absurd h (by simp)
  | Close j =>
      simp only [step] at h
      split at h
      · split at h <;>
          · simp only [StepResult.ok.injEq] at h
            exact ⟨h.1.symm, h.2.1.symm⟩
      · exact absurd h (by simp)
  | Mul off f =>
      simp only [step] at h
      split at h
      · exact absurd h (by simp)
      · split at h
        · exact absurd h (by simp)
        · split at h
          · simp only [StepResult.ok.injEq] at h
            obtain ⟨h1, h2, -, -, -⟩ := h
            exact ⟨h2.symm, fun k hk => by rw [← h1, List.getElem?_set_ne (Ne.symm hk)]⟩
          · exact absurd h (by simp)
  | Scan s =>
      simp only [step] at h
      split at h
      · split at h
        · split at h
          · simp only [StepResult.ok.injEq] at h
            exact h.1.symm
          · exact absurd h (by simp)
        · exact absurd h (by simp)
      · split at h
        · split at h
          · split at h
            · simp only [StepResult.ok.injEq] at h
              exact h.1.symm
            · exact absurd h (by simp)
          · exact absurd h (by simp)
        · split at h
          · split at h
            · exact absurd h (by simp)
            · split at h
              · exact absurd h (by simp)
              · simp only [StepResult.ok.injEq] at h
                exact h.1.symm
          · split at h
            · exact absurd h (by simp)
            · exact absurd h (by simp)
            · exact absurd h (by simp)
            · simp only [StepResult.ok.injEq] at h
              exact h.1.symm

/-- C10 (witness): the frame property instantiated at a successful
concrete step, `Add 1` on tape `[5]` at pointer 0. -/
theorem step_frame_effects_witness :
    frame_ok (.Add 1) [5] 0 [6] 0 :=
  step_frame_effects (.Add 1) ⟨0, 1, 1, 1⟩ [5] 0 0 none none ⟨1, none, .Zero, true⟩
    [6] 0 0 none none (by decide)

/-- Helper: with a positive stride the fuel used by the interpreter for
the general negative scan is never exhausted. -/
theorem scan_neg_go_no_spin (tape : List Nat) (st : Nat) (hst : 1 ≤ st) :
    ∀ fuel p, p + 1 ≤ fuel → scan_neg_go tape st fuel p ≠ .spin := by
  intro fuel
  induction fuel with
  | zero => intro p hp; exact absurd hp (by omega)
  | succ f ih =>
    intro p hp
    simp only [scan_neg_go]
    split
    · split
      · split
        · simp
        · exact ih (p - st) (by omega)
      · simp
    · simp

/-- Helper: starting in bounds, the general negative scan never indexes
the tape out of bounds, and a successful result is in bounds. -/
theorem scan_neg_go_no_panic (tape : List Nat) (st : Nat) :
    ∀ fuel p, p < tape.length →
      scan_neg_go tape st fuel p ≠ .panic ∧
      ∀ q, scan_neg_go tape st fuel p = .ok q → q < tape.length := by
  intro fuel
  induction fuel with
  | zero =>
      intro p hp
      refine ⟨by simp [scan_neg_go], ?_⟩
      intro q hq
      simp [scan_neg_go] at hq
  | succ f ih =>
      intro p hp
      simp only [scan_neg_go]
      rw [if_pos hp]
      split
      · split
        · refine ⟨by simp, ?_⟩
          intro q hq
          simp at hq
        · exact ih (p - st) (by omega)
      · refine ⟨by simp, ?_⟩
        intro q hq
        simp only [ScanRes.ok.injEq] at hq
        omega

/-- Helper: the general negative scan fails with underflow exactly when
the descent predicate of the claim holds (fuel-independent, for any
sufficient fuels). -/
theorem scan_neg_underflow_iff (tape : List Nat) (st : Nat) (hst : 1 ≤ st) :
    ∀ p f1 f2, p < tape.length → p + 1 ≤ f1 → p + 1 ≤ f2 →
      (scan_neg_go tape st f1 p = .underflow ↔ hits_underflow_go tape st f2 p = true) := by
  intro p
  induction p using Nat.strong_induction_on with
  | _ p ih =>
    intro f1 f2 hp hf1 hf2
    match f1, f2 with
    | f1 + 1, f2 + 1 =>
      simp only [scan_neg_go, hits_underflow_go]
      rw [if_pos hp]
      by_cases hz : tape[p]?.getD 0 = 0
      · simp [hz]
      · by_cases hlt : p < st
        · simp [hz, hlt]
        · have key := ih (p - st) (by omega) f1 f2 (by omega) (by omega) (by omega)
          simp [hz, hlt, key]

/-- C8: executing `Scan(s)` with `s < 0` on the general (non-unit-
stride) path: when the starting cell is already zero the scan returns
with the pointer unchanged and performs no bounds check at all (it
succeeds even when `pointer < |s|`); and it fails with
`PointerUnderflow` exactly when, stepping backwards by `|s|`, a position
`p` with `tape[p] ≠ 0` and `p < |s|` is reached before any zero cell
(the predicate `hits_underflow`). -/
theorem scan_negative_general_path (s : Int) (span : Span) (tape : List Nat)
    (pointer ip : Nat) (input output : Option (List Nat)) (config : Config)
    (hs : s < 0) (hs1 : s ≠ -1) (hp : pointer < tape.length) :
    (tape.getD pointer 0 = 0 →
      step (.Scan s) span tape pointer ip input output config =
        .ok tape pointer ip input output) ∧
    (step (.Scan s) span tape pointer ip input output config =
        .err (.PointerUnderflow span) ↔
      hits_underflow tape (-s).toNat pointer = true) := by
  have hs2 : s ≠ 1 := by omega
  have hpos : ¬ 0 < s := by omega
  have hst : 1 ≤ (-s).toNat := by omega
  simp only [step, if_neg hs2, if_neg hs1, if_neg hpos]
  have key := scan_neg_underflow_iff tape (-s).toNat hst pointer (pointer + 2) (pointer + 1)
    hp (by omega) (by omega)
  constructor
  · intro hz
    have hz2 : tape[pointer]?.getD 0 = 0 := by simpa using hz
    have hok : scan_neg_go tape (-s).toNat (pointer + 2) pointer = .ok pointer := by
      simp only [scan_neg_go]
      rw [if_pos hp]
      simp [hz2]
    rw [hok]
  · rcases hres : scan_neg_go tape (-s).toNat (pointer + 2) pointer with q | _ | _ | _
    · rw [hres] at key
      simp only [hits_underflow]
      simp at key
      simp [key]
    · rw [hres] at key
      simp only [hits_underflow]
      simp at key
      simp [key]
    · exact absurd hres ((scan_neg_go_no_panic tape (-s).toNat (pointer + 2) pointer hp).1 ·)
    · exact absurd hres (scan_neg_go_no_spin tape (-s).toNat hst (pointer + 2) pointer (by omega) ·)

/-- C8 (witness): `Scan(-2)` on tape `[0]` at pointer 0 — the starting
cell is zero and `pointer < |s|`, yet the scan succeeds with the pointer
unchanged (no bounds check), and the underflow condition is false. -/
theorem scan_negative_general_path_witness :
    (([0] : List Nat).getD 0 0 = 0 →
      step (.Scan (-2)) ⟨0, 1, 1, 1⟩ [0] 0 0 none none ⟨1, none, .Zero, true⟩ =
        .ok [0] 0 0 none none) ∧
    (step (.Scan (-2)) ⟨0, 1, 1, 1⟩ [0] 0 0 none none ⟨1, none, .Zero, true⟩ =
        .err (.PointerUnderflow ⟨0, 1, 1, 1⟩) ↔
      hits_underflow [0] ((-(-2 : Int)).toNat) 0 = true) :=
  scan_negative_general_path (-2) ⟨0, 1, 1, 1⟩ [0] 0 0 none none ⟨1, none, .Zero, true⟩
    (by decide) (by decide) (by decide)

/-- Helper: on an all-`Add`/`Move` body, `try_mul_loop_go` is the
spec-side recognizer: it succeeds exactly when the accumulated offset
plus the body's net offset is zero and the origin delta is 255, and then
returns the accumulated pairs followed by one pair per non-origin `Add`
in body order. -/
theorem try_mul_loop_go_eq (body : List Op) :
    all_add_move body = true →
    ∀ (off : Int) (muls : List (Int × Nat)) (delta : Nat),
      try_mul_loop_go body off muls delta =
        if off + net_offset body = 0 ∧ origin_delta_ref body off delta = 255
        then some (muls ++ mul_pairs_ref body off) else none := by
  induction body with
  | nil =>
      intro _ off muls delta
      simp [try_mul_loop_go, net_offset, origin_delta_ref, mul_pairs_ref]
  | cons op rest ih =>
      intro hall off muls delta
      cases op with
      | Add n =>
          have hall2 : all_add_move rest = true := by
            simp only [all_add_move, List.all_cons, Bool.and_eq_true] at hall
            exact hall.2
          simp only [try_mul_loop_go, net_offset, origin_delta_ref, mul_pairs_ref]
          by_cases hoff : off = 0
          · rw [if_pos hoff, ih hall2]
            simp [hoff]
          · rw [if_neg hoff, ih hall2]
            simp [hoff]
      | Move d =>
          have hall2 : all_add_move rest = true := by
            simp only [all_add_move, List.all_cons, Bool.and_eq_true] at hall
            exact hall.2
          simp only [try_mul_loop_go, net_offset, origin_delta_ref, mul_pairs_ref]
          rw [ih hall2]
          have hass : off + d + net_offset rest = off + (d + net_offset rest) := by ring
          rw [hass]
      | Out => simp [all_add_move] at hall
      | In => simp [all_add_move] at hall
      | Open j => simp [all_add_move] at hall
      | Close j => simp [all_add_move] at hall
      | Set n => simp [all_add_move] at hall
      | Mul o f => simp [all_add_move] at hall
      | Scan s => simp [all_add_move] at hall

/-- C6: when a `]` closes a loop whose compacted body (the ops past the
matching `Open` at index `start`) consists only of `Add` and `Move` ops,
with net pointer offset zero and net wrapping delta 255 on the origin
cell, the close handler replaces the whole loop with one
`Mul(offset, factor)` per non-origin `Add` of the body, emitted in the
order those `Add`s appear (the same offset may yield several `Mul`s),
followed by a `Set(0)` appended through compaction. -/
theorem close_loop_mul_recognition (ops : List Op) (spans : List Span) (start : Nat)
    (loop_span : Span)
    (hbody : all_add_move (ops.drop (start + 1)) = true)
    (hoff : net_offset (ops.drop (start + 1)) = 0)
    (hdelta : origin_delta_ref (ops.drop (start + 1)) 0 0 = 255) :
    close_loop ops spans start loop_span =
      push_and_compact
        (ops.take start ++ (mul_pairs_ref (ops.drop (start + 1)) 0).map fun m => Op.Mul m.1 m.2)
        (spans.take start ++ (mul_pairs_ref (ops.drop (start + 1)) 0).map fun _ => loop_span)
        (.Set 0) loop_span := by
  have h := try_mul_loop_go_eq (ops.drop (start + 1)) hbody 0 [] 0
  have hm : try_mul_loop (ops.drop (start + 1)) =
      some (mul_pairs_ref (ops.drop (start + 1)) 0) := by
    rw [try_mul_loop, h]
    simp [hoff, hdelta]
  simp only [close_loop, hm]

/-- C6 (witness): closing the loop of `,[->+<]` (placeholder `Open 0` at
index 1, body `Add 255, Move 1, Add 1, Move (-1)`) yields
`In, Mul(1,1), Set(0)`. -/
theorem close_loop_mul_recognition_witness :
    close_loop [.In, .Open 0, .Add 255, .Move 1, .Add 1, .Move (-1)]
      [⟨0, 1, 1, 1⟩, ⟨1, 2, 1, 2⟩, ⟨2, 3, 1, 3⟩, ⟨3, 4, 1, 4⟩, ⟨4, 5, 1, 5⟩, ⟨5, 6, 1, 6⟩]
      1 ⟨1, 7, 1, 2⟩ =
      ([.In, .Mul 1 1, .Set 0], [⟨0, 1, 1, 1⟩, ⟨1, 7, 1, 2⟩, ⟨1, 7, 1, 2⟩]) := by
  have h := close_loop_mul_recognition [.In, .Open 0, .Add 255, .Move 1, .Add 1, .Move (-1)]
    [⟨0, 1, 1, 1⟩, ⟨1, 2, 1, 2⟩, ⟨2, 3, 1, 3⟩, ⟨3, 4, 1, 4⟩, ⟨4, 5, 1, 5⟩, ⟨5, 6, 1, 6⟩]
    1 ⟨1, 7, 1, 2⟩ (by decide) (by decide) (by decide)
  rw [h]
  decide

theorem hl_lt_of_getq {α : Type} {l : List α} {i : Nat} {x : α} (h : l[i]? = some x) :
    i < l.length := (List.getElem?_eq_some.mp h).1

theorem hl_getq_append_left {α : Type} {l L : List α} {i : Nat} (h : i < l.length) :
    (l ++ L)[i]? = l[i]? := by simp [List.getElem?_append, h]

theorem hl_getq_append_last {α : Type} (l : List α) (a : α) :
    (l ++ [a])[l.length]? = some a := by simp

theorem hl_getq_take {α : Type} {l : List α} {n j : Nat} (h : j < n) :
    (l.take n)[j]? = l[j]? := by simp [List.getElem?_take, h]

theorem hl_getq_dropLast {α : Type} {l : List α} {i : Nat} (h : i < l.length - 1) :
    l.dropLast[i]? = l[i]? := by rw [List.getElem?_dropLast]; simp [h]

theorem hl_dropLast2_take {α : Type} {l : List α} {n : Nat} (h : l.length = n + 2) :
    l.dropLast.dropLast = l.take n := by
  rw [List.dropLast_eq_take, List.dropLast_eq_take]
  simp [h]
  rw [List.take_take]
  simp

theorem hl_getLast_getq {α : Type} {l : List α} {a : α} (h : l.getLast? = some a) :
    l[l.length - 1]? = some a := by rwa [List.getLast?_eq_getElem?] at h

theorem stack_indices_cons (p : Nat × Span) (st : List (Nat × Span)) :
    stack_indices (p :: st) = p.1 :: stack_indices st := rfl

theorem not_jump_of_arith (op : Op) (h : is_arith op = true) : not_jump op := by
  cases op <;> simp [is_arith] at h <;> exact ⟨fun j => by simp, fun j => by simp⟩

theorem CInv.append {ops : List Op} {spans : List Span} {stack : List (Nat × Span)}
    (h : CInv ops spans stack) (L : List Op) (Ls : List Span) (hlen : L.length = Ls.length)
    (hL : ∀ op ∈ L, GoodOp op ∧ not_jump op) :
    CInv (ops ++ L) (spans ++ Ls) stack := by
  obtain ⟨h1, h2, h3, h4, h5, h6⟩ := h
  refine ⟨by simp [h1, hlen], h2, ?_, ?_, ?_, ?_⟩
  · intro pr hpr
    have hlt := hl_lt_of_getq (h3 pr hpr)
    rw [hl_getq_append_left hlt]
    exact h3 pr hpr
  · intro i j hij hnot
    by_cases hi : i < ops.length
    · rw [hl_getq_append_left hi] at hij
      obtain ⟨hij1, hij2, hij3⟩ := h4 i j hij hnot
      have hj : j < ops.length := hl_lt_of_getq hij2
      exact ⟨hij1, by rw [hl_getq_append_left hj]; exact hij2, hij3⟩
    · exfalso
      rw [List.getElem?_append_right (by omega)] at hij
      exact ((hL _ (List.getElem?_mem hij)).2.1 j) rfl
  · intro i j hij
    by_cases hi : i < ops.length
    · rw [hl_getq_append_left hi] at hij
      obtain ⟨hij1, hij2, hij3⟩ := h5 i j hij
      have hj : j < ops.length := hl_lt_of_getq hij2
      exact ⟨hij1, by rw [hl_getq_append_left hj]; exact hij2, hij3⟩
    · exfalso
      rw [List.getElem?_append_right (by omega)] at hij
      exact ((hL _ (List.getElem?_mem hij)).2.2 j) rfl
  · intro op hop
    rcases List.mem_append.mp hop with hx | hx
    · exact h6 op hx
    · exact (hL op hx).1

theorem CInv.take_top {ops : List Op} {spans : List Span} {stack : List (Nat × Span)}
    {start : Nat} {sp : Span} (h : CInv ops spans ((start, sp) :: stack)) :
    CInv (ops.take start) (spans.take start) stack := by
  obtain ⟨h1, h2, h3, h4, h5, h6⟩ := h
  have hstart : ops[start]? = some (.Open 0) := h3 (start, sp) (by simp)
  have hslt : start < ops.length := hl_lt_of_getq hstart
  have hrest : ∀ pr ∈ stack, pr.1 < start := (List.pairwise_cons.mp h2).1
  refine ⟨by simp [h1], (List.pairwise_cons.mp h2).2, ?_, ?_, ?_, ?_⟩
  · intro pr hpr
    rw [hl_getq_take (hrest pr hpr)]
    exact h3 pr (by simp [hpr])
  · intro i j hij hnot
    have hi : i < start := by
      have := hl_lt_of_getq hij
      simp at this
      omega
    rw [hl_getq_take hi] at hij
    have hin : i ∉ stack_indices ((start, sp) :: stack) := by
      rw [stack_indices_cons]
      intro hmem
      rcases List.mem_cons.mp hmem with hx | hx
      · omega
      · exact hnot hx
    obtain ⟨hij1, hij2, hij3⟩ := h4 i j hij hin
    have hj : j < start := by
      rcases hij3 start (by rw [stack_indices_cons]; exact List.mem_cons_self _ _) with hc | hc
      · omega
      · exact hc
    refine ⟨hij1, by rw [hl_getq_take hj]; exact hij2, ?_⟩
    intro k hk
    exact hij3 k (by rw [stack_indices_cons]; exact List.mem_cons_of_mem _ hk)
  · intro i j hij
    have hi : i < start := by
      have := hl_lt_of_getq hij
      simp at this
      omega
    rw [hl_getq_take hi] at hij
    obtain ⟨hij1, hij2, hij3⟩ := h5 i j hij
    have hj : j < start := by omega
    refine ⟨hij1, by rw [hl_getq_take hj]; exact hij2, ?_⟩
    intro hk
    exact hij3 (by rw [stack_indices_cons]; exact List.mem_cons_of_mem _ hk)
  · intro op hop
    exact h6 op (List.take_subset _ _ hop)

theorem CInv.dropLast_arith {ops : List Op} {spans : List Span} {stack : List (Nat × Span)}
    (h : CInv ops spans stack) (l : Op) (hl : ops.getLast? = some l)
    (hlar : is_arith l = true) :
    CInv ops.dropLast spans.dropLast stack := by
  obtain ⟨h1, h2, h3, h4, h5, h6⟩ := h
  have hlast : ops[ops.length - 1]? = some l := hl_getLast_getq hl
  refine ⟨by simp [h1], h2, ?_, ?_, ?_, ?_⟩
  · intro pr hpr
    have hpr2 := h3 pr hpr
    have hlt := hl_lt_of_getq hpr2
    have hne2 : pr.1 ≠ ops.length - 1 := by
      intro heq
      rw [heq, hlast] at hpr2
      injection hpr2 with hx
      subst hx
      simp [is_arith] at hlar
    rw [hl_getq_dropLast (by omega)]
    exact h3 pr hpr
  · intro i j hij hnot
    have hi : i < ops.length - 1 := by
      have := hl_lt_of_getq hij
      simpa using this
    rw [hl_getq_dropLast hi] at hij
    obtain ⟨hij1, hij2, hij3⟩ := h4 i j hij hnot
    have hjlt := hl_lt_of_getq hij2
    have hjne : j ≠ ops.length - 1 := by
      intro heq
      rw [heq, hlast] at hij2
      injection hij2 with hx
      subst hx
      simp [is_arith] at hlar
    exact ⟨hij1, by rw [hl_getq_dropLast (by omega)]; exact hij2, hij3⟩
  · intro i j hij
    have hi : i < ops.length - 1 := by
      have := hl_lt_of_getq hij
      simpa using this
    rw [hl_getq_dropLast hi] at hij
    obtain ⟨hij1, hij2, hij3⟩ := h5 i j hij
    have hjlt := hl_lt_of_getq hij2
    have hjne : j ≠ ops.length - 1 := by
      intro heq
      rw [heq, hlast] at hij2
      injection hij2 with hx
      subst hx
      simp [is_arith] at hlar
    exact ⟨hij1, by rw [hl_getq_dropLast (by omega)]; exact hij2, hij3⟩
  · intro op hop
    exact h6 op (List.dropLast_subset _ hop)

theorem CInv.pac {ops : List Op} {spans : List Span} {stack : List (Nat × Span)}
    (h : CInv ops spans stack) (op : Op) (span : Span)
    (hop : GoodOp op) (har : is_arith op = true) (ops2 : List Op) (spans2 : List Span)
    (hpac : push_and_compact ops spans op span = (ops2, spans2)) :
    CInv ops2 spans2 stack := by
  unfold push_and_compact at hpac
  split at hpac
  case _ a s b heq1 heq2 =>
    dsimp only at hpac
    split at hpac
    case isTrue hsum =>
      injection hpac with hx hy
      subst hx hy
      exact h.dropLast_arith _ heq1 (by simp [is_arith])
    case isFalse hsum =>
      injection hpac with hx hy
      subst hx hy
      refine (h.dropLast_arith _ heq1 (by simp [is_arith])).append _ _ (by simp) ?_
      intro x hx
      simp at hx
      subst hx
      refine ⟨⟨?_, by simp, by simp⟩, ⟨fun j => by simp, fun j => by simp⟩⟩
      simp only [ne_eq, Op.Add.injEq]
      exact hsum
  case _ a s b heq1 heq2 =>
    split at hpac
    case _ sum hck =>
      split at hpac
      case isTrue hsum =>
        injection hpac with hx hy
        subst hx hy
        exact h.dropLast_arith _ heq1 (by simp [is_arith])
      case isFalse hsum =>
        injection hpac with hx hy
        subst hx hy
        refine (h.dropLast_arith _ heq1 (by simp [is_arith])).append _ _ (by simp) ?_
        intro x hx
        simp at hx
        subst hx
        refine ⟨⟨by simp, ?_, by simp⟩, ⟨fun j => by simp, fun j => by simp⟩⟩
        simp only [ne_eq, Op.Move.injEq]
        exact hsum
    case _ hck =>
      injection hpac with hx hy
      subst hx hy
      refine h.append _ _ (by simp) ?_
      intro x hx
      simp at hx
      subst hx
      exact ⟨⟨by simp, by simpa [GoodOp] using hop.2.1, by simp⟩,
        ⟨fun j => by simp, fun j => by simp⟩⟩
  case _ a s b heq1 heq2 =>
    injection hpac with hx hy
    subst hx hy
    refine (h.dropLast_arith _ heq1 (by simp [is_arith])).append _ _ (by simp) ?_
    intro x hx
    simp at hx
    subst hx
    exact ⟨⟨by simp, by simp, by simp⟩, ⟨fun j => by simp, fun j => by simp⟩⟩
  case _ a s b heq1 heq2 =>
    injection hpac with hx hy
    subst hx hy
    refine (h.dropLast_arith _ heq1 (by simp [is_arith])).append _ _ (by simp) ?_
    intro x hx
    simp at hx
    subst hx
    exact ⟨⟨by simp, by simp, by simp⟩, ⟨fun j => by simp, fun j => by simp⟩⟩
  case _ a s b heq1 heq2 =>
    injection hpac with hx hy
    subst hx hy
    refine (h.dropLast_arith _ heq1 (by simp [is_arith])).append _ _ (by simp) ?_
    intro x hx
    simp at hx
    subst hx
    exact ⟨⟨by simp, by simp, by simp⟩, ⟨fun j => by simp, fun j => by simp⟩⟩
  case _ =>
    injection hpac with hx hy
    subst hx hy
    refine h.append _ _ (by simp) ?_
    intro x hx
    simp at hx
    subst hx
    exact ⟨hop, not_jump_of_arith _ har⟩

theorem CInv.push_open {ops : List Op} {spans : List Span} {stack : List (Nat × Span)}
    (h : CInv ops spans stack) (span : Span) :
    CInv (ops ++ [.Open 0]) (spans ++ [span]) ((ops.length, span) :: stack) := by
  obtain ⟨h1, h2, h3, h4, h5, h6⟩ := h
  have hbound : ∀ pr ∈ stack, pr.1 < ops.length := fun pr hpr => hl_lt_of_getq (h3 pr hpr)
  refine ⟨by simp [h1], List.pairwise_cons.mpr ⟨hbound, h2⟩, ?_, ?_, ?_, ?_⟩
  · intro pr hpr
    rcases List.mem_cons.mp hpr with hx | hx
    · subst hx
      exact hl_getq_append_last ops (.Open 0)
    · rw [hl_getq_append_left (hbound pr hx)]
      exact h3 pr hx
  · intro i j hij hnot
    rw [stack_indices_cons] at hnot
    have hne : i ≠ ops.length := fun hc => hnot (hc ▸ List.mem_cons_self _ _)
    have hnot2 : i ∉ stack_indices stack := fun hc => hnot (List.mem_cons_of_mem _ hc)
    have hilt : i < ops.length := by
      have := hl_lt_of_getq hij
      simp at this
      omega
    rw [hl_getq_append_left hilt] at hij
    obtain ⟨hij1, hij2, hij3⟩ := h4 i j hij hnot2
    have hjlt : j < ops.length := hl_lt_of_getq hij2
    refine ⟨hij1, by rw [hl_getq_append_left hjlt]; exact hij2, ?_⟩
    intro k hk
    rw [stack_indices_cons] at hk
    rcases List.mem_cons.mp hk with hx | hx
    · subst hx
      right
      omega
    · exact hij3 k hx
  · intro i j hij
    have hilt : i < ops.length := by
      have hub := hl_lt_of_getq hij
      simp at hub
      rcases Nat.lt_or_ge i ops.length with hx | hx
      · exact hx
      · exfalso
        have : i = ops.length := by omega
        rw [this, hl_getq_append_last] at hij
        simp at hij
    rw [hl_getq_append_left hilt] at hij
    obtain ⟨hij1, hij2, hij3⟩ := h5 i j hij
    have hjlt : j < ops.length := hl_lt_of_getq hij2
    refine ⟨hij1, by rw [hl_getq_append_left hjlt]; exact hij2, ?_⟩
    rw [stack_indices_cons]
    intro hk
    rcases List.mem_cons.mp hk with hx | hx
    · omega
    · exact hij3 hx
  · intro x hx
    rcases List.mem_append.mp hx with hm | hm
    · exact h6 x hm
    · simp at hm
      subst hm
      exact ⟨by simp, by simp, by simp⟩

theorem CInv.close_gen {ops : List Op} {spans : List Span} {stack : List (Nat × Span)}
    {start : Nat} {sp : Span} (h : CInv ops spans ((start, sp) :: stack)) (loop_span : Span) :
    CInv (ops.set start (.Open ops.length) ++ [.Close start]) (spans ++ [loop_span]) stack := by
  obtain ⟨h1, h2, h3, h4, h5, h6⟩ := h
  have hstart : ops[start]? = some (.Open 0) := h3 (start, sp) (by simp)
  have hslt : start < ops.length := hl_lt_of_getq hstart
  have hrest : ∀ pr ∈ stack, pr.1 < start := (List.pairwise_cons.mp h2).1
  have hrest_idx : ∀ k ∈ stack_indices stack, k < start := by
    intro k hk
    rcases List.mem_map.mp hk with ⟨pr, hpr, hpr2⟩
    subst hpr2
    exact hrest pr hpr
  have hsetlen : (ops.set start (.Open ops.length)).length = ops.length := by simp
  have hget_new : ∀ i, i < ops.length → i ≠ start →
      (ops.set start (.Open ops.length) ++ [.Close start])[i]? = ops[i]? := by
    intro i hilt hne
    rw [hl_getq_append_left (by omega), List.getElem?_set_ne (Ne.symm hne)]
  have hget_start :
      (ops.set start (.Open ops.length) ++ [.Close start])[start]? =
        some (.Open ops.length) := by
    rw [hl_getq_append_left (by omega)]
    simp [List.getElem?_set_self, hslt]
  have hget_end :
      (ops.set start (.Open ops.length) ++ [.Close start])[ops.length]? =
        some (.Close start) := by
    have hx := hl_getq_append_last (ops.set start (.Open ops.length)) (Op.Close start)
    rwa [hsetlen] at hx
  refine ⟨by simp [h1], (List.pairwise_cons.mp h2).2, ?_, ?_, ?_, ?_⟩
  · intro pr hpr
    rw [hget_new pr.1 (by have := hrest pr hpr; omega) (by have := hrest pr hpr; omega)]
    exact h3 pr (by simp [hpr])
  · intro i j hij hnot
    have hub : i < ops.length + 1 := by
      have := hl_lt_of_getq hij
      simpa using this
    by_cases hiN : i = ops.length
    · rw [hiN, hget_end] at hij
      simp at hij
    by_cases his : i = start
    · rw [his, hget_start] at hij
      injection hij with hx
      injection hx with hx2
      subst hx2
      subst his
      refine ⟨hslt, hget_end, ?_⟩
      intro k hk
      left
      exact hrest_idx k hk
    · have hilt : i < ops.length := by omega
      rw [hget_new i hilt his] at hij
      have hnot2 : i ∉ stack_indices ((start, sp) :: stack) := by
        rw [stack_indices_cons]
        intro hk
        rcases List.mem_cons.mp hk with hx | hx
        · exact his hx
        · exact hnot hx
      obtain ⟨hij1, hij2, hij3⟩ := h4 i j hij hnot2
      have hjlt : j < ops.length := hl_lt_of_getq hij2
      have hjs : j ≠ start := by
        intro hc
        rw [hc, hstart] at hij2
        simp at hij2
      refine ⟨hij1, by rw [hget_new j hjlt hjs]; exact hij2, ?_⟩
      intro k hk
      exact hij3 k (by rw [stack_indices_cons]; exact List.mem_cons_of_mem _ hk)
  · intro i j hij
    have hub : i < ops.length + 1 := by
      have := hl_lt_of_getq hij
      simpa using this
    by_cases hiN : i = ops.length
    · rw [hiN, hget_end] at hij
      injection hij with hx
      injection hx with hx2
      subst hx2
      subst hiN
      refine ⟨hslt, hget_start, ?_⟩
      intro hk
      exact absurd (hrest_idx start hk) (lt_irrefl start)
    · by_cases his : i = start
      · rw [his, hget_start] at hij
        simp at hij
      · have hilt : i < ops.length := by omega
        rw [hget_new i hilt his] at hij
        obtain ⟨hij1, hij2, hij3⟩ := h5 i j hij
        rw [stack_indices_cons] at hij3
        have hjlt : j < ops.length := hl_lt_of_getq hij2
        have hjs : j ≠ start := fun hc => hij3 (hc ▸ List.mem_cons_self _ _)
        refine ⟨hij1, by rw [hget_new j hjlt hjs]; exact hij2, ?_⟩
        intro hk
        exact hij3 (List.mem_cons_of_mem _ hk)
  · intro x hx
    rcases List.mem_append.mp hx with hm | hm
    · rcases List.mem_or_eq_of_mem_set hm with hm2 | hm2
      · exact h6 x hm2
      · subst hm2
        exact ⟨by simp, by simp, by simp⟩
    · simp at hm
      subst hm
      exact ⟨by simp, by simp, by simp⟩

theorem CInv.close_loop_inv {ops : List Op} {spans : List Span} {stack : List (Nat × Span)}
    {start : Nat} {sp : Span} (h : CInv ops spans ((start, sp) :: stack))
    (loop_span : Span) (ops2 : List Op) (spans2 : List Span)
    (hcl : close_loop ops spans start loop_span = (ops2, spans2)) :
    CInv ops2 spans2 stack := by
  unfold close_loop at hcl
  split at hcl
  case _ muls hm =>
    refine CInv.pac ?_ _ loop_span (by exact ⟨by simp, by simp, by simp⟩)
      (by simp [is_arith]) _ _ hcl
    refine (CInv.take_top h).append _ _ (by simp) ?_
    intro x hx
    rcases List.mem_map.mp hx with ⟨m, hm2, hm3⟩
    subst hm3
    exact ⟨⟨by simp, by simp, by simp⟩, fun j => by simp, fun j => by simp⟩
  case _ hm =>
    split at hcl
    case isTrue hlen2 =>
      split at hcl
      case _ n heq =>
        injection hcl with hx hy
        subst hx hy
        rw [hl_dropLast2_take hlen2, hl_dropLast2_take (by rw [← h.len_eq]; exact hlen2)]
        refine (CInv.take_top h).append _ _ (by simp) ?_
        intro x hx
        simp at hx
        subst hx
        have hmem : (Op.Move n) ∈ ops := List.getElem?_mem (hl_getLast_getq heq)
        have hgood := h.good _ hmem
        have hn : n ≠ 0 := by
          intro hc
          exact hgood.2.1 (by rw [hc])
        refine ⟨⟨by simp, by simp, ?_⟩, fun j => by simp, fun j => by simp⟩
        simp only [ne_eq, Op.Scan.injEq]
        exact hn
      case _ n heq =>
        split at hcl
        case isTrue hodd =>
          rw [hl_dropLast2_take hlen2, hl_dropLast2_take (by rw [← h.len_eq]; exact hlen2)]
            at hcl
          exact CInv.pac (CInv.take_top h) _ _ ⟨by simp, by simp, by simp⟩
            (by simp [is_arith]) _ _ hcl
        case isFalse hodd =>
          unfold close_general at hcl
          injection hcl with hx hy
          subst hx hy
          exact h.close_gen loop_span
      case _ hne1 hne2 =>
        unfold close_general at hcl
        injection hcl with hx hy
        subst hx hy
        exact h.close_gen loop_span
    case isFalse hlen2 =>
      unfold close_general at hcl
      injection hcl with hx hy
      subst hx hy
      exact h.close_gen loop_span

theorem good_arith_pair (x : Op) (hg : GoodOp x) (ha : is_arith x = true ∨ x = .Out ∨ x = .In) :
    GoodOp x ∧ not_jump x := by
  rcases ha with ha | ha | ha
  · exact ⟨hg, not_jump_of_arith x ha⟩
  · subst ha
    exact ⟨hg, fun j => by simp, fun j => by simp⟩
  · subst ha
    exact ⟨hg, fun j => by simp, fun j => by simp⟩

theorem compile_go_inv (source : List Nat) :
    ∀ (fuel : Nat) (ops : List Op) (spans : List Span) (stack : List (Nat × Span))
      (i line col : Nat) (ops2 : List Op) (spans2 : List Span),
      CInv ops spans stack →
      compile_go source fuel ops spans stack i line col = some (.ok (ops2, spans2)) →
      CInv ops2 spans2 [] := by
  intro fuel
  induction fuel with
  | zero =>
      intro ops spans stack i line col ops2 spans2 hinv hc
      rw [compile_go.eq_def] at hc
      simp at hc
  | succ f ih =>
      intro ops spans stack i line col ops2 spans2 hinv hc
      rw [compile_go.eq_def] at hc
      dsimp only at hc
      by_cases hi : i < source.length
      · rw [if_pos hi] at hc
        by_cases h43 : source.getD i 0 = 43
        · rw [if_pos h43] at hc
          exact ih _ _ _ _ _ _ _ _
            (hinv.pac _ _ ⟨by simp, by simp, by simp⟩ (by simp [is_arith]) _ _ rfl) hc
        rw [if_neg h43] at hc
        by_cases h45 : source.getD i 0 = 45
        · rw [if_pos h45] at hc
          exact ih _ _ _ _ _ _ _ _
            (hinv.pac _ _ ⟨by simp, by simp, by simp⟩ (by simp [is_arith]) _ _ rfl) hc
        rw [if_neg h45] at hc
        by_cases h60 : source.getD i 0 = 60
        · rw [if_pos h60] at hc
          exact ih _ _ _ _ _ _ _ _
            (hinv.pac _ _ ⟨by simp, by simp, by simp⟩ (by simp [is_arith]) _ _ rfl) hc
        rw [if_neg h60] at hc
        by_cases h62 : source.getD i 0 = 62
        · rw [if_pos h62] at hc
          exact ih _ _ _ _ _ _ _ _
            (hinv.pac _ _ ⟨by simp, by simp, by simp⟩ (by simp [is_arith]) _ _ rfl) hc
        rw [if_neg h62] at hc
        by_cases h46 : source.getD i 0 = 46
        · rw [if_pos h46] at hc
          refine ih _ _ _ _ _ _ _ _ (hinv.append [.Out] [⟨i, i + 1, line, col⟩] (by simp) ?_) hc
          intro x hx
          simp at hx
          subst hx
          exact ⟨⟨by simp, by simp, by simp⟩, fun j => by simp, fun j => by simp⟩
        rw [if_neg h46] at hc
        by_cases h44 : source.getD i 0 = 44
        · rw [if_pos h44] at hc
          refine ih _ _ _ _ _ _ _ _ (hinv.append [.In] [⟨i, i + 1, line, col⟩] (by simp) ?_) hc
          intro x hx
          simp at hx
          subst hx
          exact ⟨⟨by simp, by simp, by simp⟩, fun j => by simp, fun j => by simp⟩
        rw [if_neg h44] at hc
        by_cases h91 : source.getD i 0 = 91
        · rw [if_pos h91] at hc
          by_cases hdead : is_dead ops = true
          · rw [if_pos hdead] at hc
            exact ih _ _ _ _ _ _ _ _ hinv hc
          · rw [if_neg hdead] at hc
            exact ih _ _ _ _ _ _ _ _ (hinv.push_open _) hc
        rw [if_neg h91] at hc
        by_cases h93 : source.getD i 0 = 93
        · rw [if_pos h93] at hc
          rcases stack with _ | ⟨⟨start, lss⟩, rest⟩
          · simp at hc
          · dsimp only at hc
            exact ih _ _ _ _ _ _ _ _ (hinv.close_loop_inv _ _ _ rfl) hc
        rw [if_neg h93] at hc
        by_cases h10 : source.getD i 0 = 10
        · rw [if_pos h10] at hc
          exact ih _ _ _ _ _ _ _ _ hinv hc
        rw [if_neg h10] at hc
        exact ih _ _ _ _ _ _ _ _ hinv hc
      · rw [if_neg hi] at hc
        rcases stack with _ | ⟨⟨start, lss⟩, rest⟩
        · simp only [Option.some.injEq] at hc
          injection hc with hc2
          injection hc2 with hx hy
          subst hx hy
          exact hinv
        · simp at hc

/-- Helper: the compiler state invariant holds initially. -/
theorem CInv.empty : CInv [] [] [] := by
  refine ⟨rfl, by simp, by simp, ?_, ?_, by simp⟩
  · intro i j h
    simp at h
  · intro i j h
    simp at h

/-- C5: for every source that compiles successfully, the returned
sequences satisfy `ops.length = spans.length`; for every `Open(j)` at
index `i`, `ops[j] = Close(i)` with `j > i`; and for every `Close(j)` at
index `i`, `ops[j] = Open(i)` with `j < i`. -/
theorem compile_jump_consistency (source : List Nat) (ops : List Op) (spans : List Span)
    (h : compile source = some (.ok (ops, spans))) :
    ops.length = spans.length ∧
    (∀ i j, ops[i]? = some (Op.Open j) → i < j ∧ ops[j]? = some (Op.Close i)) ∧
    (∀ i j, ops[i]? = some (Op.Close j) → j < i ∧ ops[j]? = some (Op.Open i)) := by
  rw [compile] at h
  have hinv := compile_go_inv source _ _ _ _ _ _ _ _ _ CInv.empty h
  refine ⟨hinv.len_eq, ?_, ?_⟩
  · intro i j hij
    obtain ⟨h1, h2, _⟩ := hinv.open_pair i j hij (by simp [stack_indices])
    exact ⟨h1, h2⟩
  · intro i j hij
    obtain ⟨h1, h2, _⟩ := hinv.close_pair i j hij
    exact ⟨h1, h2⟩

/-- C5 (witness): the bracket-consistency facts instantiated at the
program compiled from `,[+>-.<]` (ops `In, Open 7, Add 1, Move 1,
Add 255, Out, Move (-1), Close 1`). -/
theorem compile_jump_consistency_witness :
    ([.In, .Open 7, .Add 1, .Move 1, .Add 255, .Out, .Move (-1), .Close 1] : List Op).length =
      ([⟨0, 1, 1, 1⟩, ⟨1, 2, 1, 2⟩, ⟨2, 3, 1, 3⟩, ⟨3, 4, 1, 4⟩, ⟨4, 5, 1, 5⟩, ⟨5, 6, 1, 6⟩,
        ⟨6, 7, 1, 7⟩, ⟨1, 8, 1, 2⟩] : List Span).length ∧
    (∀ i j, ([.In, .Open 7, .Add 1, .Move 1, .Add 255, .Out, .Move (-1), .Close 1] :
        List Op)[i]? = some (Op.Open j) →
      i < j ∧ ([.In, .Open 7, .Add 1, .Move 1, .Add 255, .Out, .Move (-1), .Close 1] :
        List Op)[j]? = some (Op.Close i)) ∧
    (∀ i j, ([.In, .Open 7, .Add 1, .Move 1, .Add 255, .Out, .Move (-1), .Close 1] :
        List Op)[i]? = some (Op.Close j) →
      j < i ∧ ([.In, .Open 7, .Add 1, .Move 1, .Add 255, .Out, .Move (-1), .Close 1] :
        List Op)[j]? = some (Op.Open i)) :=
  compile_jump_consistency (bytesOf ",[+>-.<]") _ _ (by decide)

/-- C9: for all input sources that compile successfully, the op sequence
contains no `Add(0)`, no `Move(0)` and no `Scan(0)`. -/
theorem compile_no_zero_ops (source : List Nat) (ops : List Op) (spans : List Span)
    (h : compile source = some (.ok (ops, spans))) :
    ∀ op ∈ ops, op ≠ Op.Add 0 ∧ op ≠ Op.Move 0 ∧ op ≠ Op.Scan 0 := by
  rw [compile] at h
  exact fun op hop => (compile_go_inv source _ _ _ _ _ _ _ _ _ CInv.empty h).good op hop

/-- C9 (witness): the no-zero-ops fact instantiated at each op of the
program compiled from `,[->+<]` (ops `In, Mul(1,1), Set 0`). -/
theorem compile_no_zero_ops_witness :
    (Op.In ≠ Op.Add 0 ∧ Op.In ≠ Op.Move 0 ∧ Op.In ≠ Op.Scan 0) ∧
    (Op.Mul 1 1 ≠ Op.Add 0 ∧ Op.Mul 1 1 ≠ Op.Move 0 ∧ Op.Mul 1 1 ≠ Op.Scan 0) ∧
    (Op.Set 0 ≠ Op.Add 0 ∧ Op.Set 0 ≠ Op.Move 0 ∧ Op.Set 0 ≠ Op.Scan 0) :=
  ⟨compile_no_zero_ops (bytesOf ",[->+<]") [.In, .Mul 1 1, .Set 0]
      [⟨0, 1, 1, 1⟩, ⟨1, 7, 1, 2⟩, ⟨1, 7, 1, 2⟩] (by decide) Op.In (by decide),
    compile_no_zero_ops (bytesOf ",[->+<]") [.In, .Mul 1 1, .Set 0]
      [⟨0, 1, 1, 1⟩, ⟨1, 7, 1, 2⟩, ⟨1, 7, 1, 2⟩] (by decide) (Op.Mul 1 1) (by decide),
    compile_no_zero_ops (bytesOf ",[->+<]") [.In, .Mul 1 1, .Set 0]
      [⟨0, 1, 1, 1⟩, ⟨1, 7, 1, 2⟩, ⟨1, 7, 1, 2⟩] (by decide) (Op.Set 0) (by decide)⟩

theorem hl_findIdx_lt {α : Type} {l : List α} {p : α → Bool} {i : Nat}
    (h : l.findIdx? p = some i) : i < l.length := by
  induction l generalizing i with
  | nil => simp [List.findIdx?] at h
  | cons x xs ih =>
    rw [List.findIdx?_cons] at h
    by_cases hp : p x
    · simp [hp] at h
      subst h
      simp
    · simp [hp, Option.map_eq_some'] at h
      obtain ⟨j, hj, rfl⟩ := h
      have := ih hj
      simpa using this

theorem step_preserves_bounds (op : Op) (span : Span) (tape : List Nat) (pointer ip : Nat)
    (input output : Option (List Nat)) (config : Config) (hp : pointer < tape.length) :
    step op span tape pointer ip input output config ≠ .panic ∧
    ∀ tape2 pointer2 ip2 input2 output2,
      step op span tape pointer ip input output config =
        .ok tape2 pointer2 ip2 input2 output2 →
      pointer2 < tape2.length ∧ tape2.length = tape.length := by
  cases op with
  | Add n =>
      refine ⟨by simp [step, hp], ?_⟩
      intro t2 p2 i2 in2 o2 h
      simp only [step, if_pos hp, StepResult.ok.injEq] at h
      obtain ⟨rfl, rfl, -, -, -⟩ := h
      simp [hp]
  | Set n =>
      refine ⟨by simp [step, hp], ?_⟩
      intro t2 p2 i2 in2 o2 h
      simp only [step, if_pos hp, StepResult.ok.injEq] at h
      obtain ⟨rfl, rfl, -, -, -⟩ := h
      simp [hp]
  | In =>
      constructor
      · simp only [step]
        split
        · simp
        · split <;> simp [hp]
        · simp [hp]
      · intro t2 p2 i2 in2 o2 h
        simp only [step] at h
        split at h
        · simp only [StepResult.ok.injEq] at h
          obtain ⟨rfl, rfl, -, -, -⟩ := h
          simp [hp]
        · split at h
          · rw [if_pos hp] at h
            simp only [StepResult.ok.injEq] at h
            obtain ⟨rfl, rfl, -, -, -⟩ := h
            simp [hp]
          · simp only [StepResult.ok.injEq] at h
            obtain ⟨rfl, rfl, -, -, -⟩ := h
            simp [hp]
          · rw [if_pos hp] at h
            simp only [StepResult.ok.injEq] at h
            obtain ⟨rfl, rfl, -, -, -⟩ := h
            simp [hp]
        · rw [if_pos hp] at h
          simp only [StepResult.ok.injEq] at h
          obtain ⟨rfl, rfl, -, -, -⟩ := h
          simp [hp]
  | Out =>
      constructor
      · simp only [step]
        split <;> simp [hp]
      · intro t2 p2 i2 in2 o2 h
        simp only [step] at h
        split at h
        · simp only [StepResult.ok.injEq] at h
          obtain ⟨rfl, rfl, -, -, -⟩ := h
          simp [hp]
        · rw [if_pos hp] at h
          simp only [StepResult.ok.injEq] at h
          obtain ⟨rfl, rfl, -, -, -⟩ := h
          simp [hp]
  | Open j =>
      refine ⟨by simp only [step, if_pos hp]; split <;> simp, ?_⟩
      intro t2 p2 i2 in2 o2 h
      simp only [step, if_pos hp] at h
      split at h <;>
        · simp only [StepResult.ok.injEq] at h
          obtain ⟨rfl, rfl, -, -, -⟩ := h
          simp [hp]
  | Close j =>
      refine ⟨by simp only [step, if_pos hp]; split <;> simp, ?_⟩
      intro t2 p2 i2 in2 o2 h
      simp only [step, if_pos hp] at h
      split at h <;>
        · simp only [StepResult.ok.injEq] at h
          obtain ⟨rfl, rfl, -, -, -⟩ := h
          simp [hp]
  | Move d =>
      constructor
      · simp only [step]
        split
        · simp
        · split <;> simp
      · intro t2 p2 i2 in2 o2 h
        simp only [step] at h
        split at h
        · simp at h
        · split at h
          · simp at h
          next hov =>
            simp only [StepResult.ok.injEq] at h
            obtain ⟨rfl, rfl, -, -, -⟩ := h
            exact ⟨by omega, rfl⟩
  | Mul off f =>
      constructor
      · simp only [step]
        split
        · simp
        · split
          · simp
          · simp [hp]
      · intro t2 p2 i2 in2 o2 h
        simp only [step] at h
        split at h
        · simp at h
        · split at h
          · simp at h
          · simp only [StepResult.ok.injEq] at h
            obtain ⟨rfl, rfl, -, -, -⟩ := h
            simp [hp]
  | Scan s =>
      constructor
      · simp only [step]
        split
        · rw [if_pos (by omega : pointer ≤ tape.length)]
          split <;> simp
        · split
          · split <;> simp
          · split
            · split
              · simp
              · split <;> simp
            · rcases hres : scan_neg_go tape (-s).toNat (pointer + 2) pointer with q | _ | _ | _
              · simp [hres]
              · simp [hres]
              · exact absurd hres
                  ((scan_neg_go_no_panic tape (-s).toNat (pointer + 2) pointer hp).1 ·)
              · simp [hres]
      · intro t2 p2 i2 in2 o2 h
        simp only [step] at h
        split at h
        · rw [if_pos (by omega : pointer ≤ tape.length)] at h
          split at h
          case _ q hq =>
            simp only [StepResult.ok.injEq] at h
            obtain ⟨rfl, rfl, -, -, -⟩ := h
            refine ⟨?_, rfl⟩
            simp only [firstZeroFrom] at hq
            split at hq
            case _ idx hidx =>
              injection hq with hq2
              subst hq2
              have := hl_findIdx_lt hidx
              simp at this
              omega
            case _ => simp at hq
          case _ => simp at h
        · split at h
          · split at h
            case _ q hq =>
              simp only [StepResult.ok.injEq] at h
              obtain ⟨rfl, rfl, -, -, -⟩ := h
              refine ⟨?_, rfl⟩
              simp only [lastZeroUpTo] at hq
              split at hq
              case _ idx hidx =>
                injection hq with hq2
                subst hq2
                omega
              case _ => simp at hq
            case _ => simp at h
          · split at h
            · split at h
              case _ q hq => simp at h
              case _ q hq =>
                split at h
                · simp at h
                next hlt =>
                  simp only [StepResult.ok.injEq] at h
                  obtain ⟨rfl, rfl, -, -, -⟩ := h
                  exact ⟨by omega, rfl⟩
            · rcases hres : scan_neg_go tape (-s).toNat (pointer + 2) pointer with q | _ | _ | _
              all_goals rw [hres] at h
              · simp only [StepResult.ok.injEq] at h
                obtain ⟨rfl, rfl, -, -, -⟩ := h
                refine ⟨?_, rfl⟩
                exact (scan_neg_go_no_panic tape (-s).toNat (pointer + 2) pointer hp).2 _ hres
              · simp at h
              · simp at h
              · simp at h
theorem execute_go_no_panic (ops : List Op) (spans : List Span) (config : Config)
    (hlen : ops.length ≤ spans.length) :
    ∀ (fuel : Nat) (tape : List Nat) (pointer ip opcount : Nat)
      (input output : Option (List Nat)), pointer < tape.length →
      execute_go ops spans config fuel tape pointer ip opcount input output ≠ .panic ∧
      ∀ r out, execute_go ops spans config fuel tape pointer ip opcount input output =
        .ok r out → r.pointer < r.tape.length := by
  intro fuel
  induction fuel with
  | zero =>
      intro tape pointer ip opcount input output hp
      rw [execute_go.eq_def]
      split
      case isTrue hip =>
        obtain ⟨sp, hsp⟩ : ∃ sp, spans[ip]? = some sp :=
          ⟨spans.get ⟨ip, by omega⟩, List.getElem?_eq_getElem (by omega)⟩
        rw [hsp]
        exact ⟨by simp, by intro r out h; simp at h⟩
      case isFalse hip =>
        refine ⟨by simp, ?_⟩
        intro r out h
        simp only [RunResult.ok.injEq] at h
        obtain ⟨rfl, -⟩ := h
        exact hp
  | succ f ih =>
      intro tape pointer ip opcount input output hp
      rw [execute_go.eq_def]
      split
      case isTrue hip =>
        obtain ⟨sp, hsp⟩ : ∃ sp, spans[ip]? = some sp :=
          ⟨spans.get ⟨ip, by omega⟩, List.getElem?_eq_getElem (by omega)⟩
        rw [hsp]
        dsimp only
        have hstep := step_preserves_bounds (ops.get ⟨ip, hip⟩) sp tape pointer ip
          input output config hp
        rcases hst : step (ops.get ⟨ip, hip⟩) sp tape pointer ip input output config
          with ⟨t2, p2, i2, in2, o2⟩ | e | _ | _
        · dsimp only
          have hb := hstep.2 t2 p2 i2 in2 o2 hst
          constructor
          · split
            · simp
            · exact (ih t2 p2 (i2 + 1) (opcount + 1) in2 o2 hb.1).1
          · intro r out h
            split at h
            · simp at h
            · exact (ih t2 p2 (i2 + 1) (opcount + 1) in2 o2 hb.1).2 r out h
        · exact ⟨by simp, by intro r out h; simp at h⟩
        · exact absurd hst hstep.1
        · exact ⟨by simp, by intro r out h; simp at h⟩
      case isFalse hip =>
        refine ⟨by simp, ?_⟩
        intro r out h
        simp only [RunResult.ok.injEq] at h
        obtain ⟨rfl, -⟩ := h
        exact hp

/-- C1 (amended): for every execution started via `Program::run` of a
successfully compiled program whose initial pointer is within the tape
(true in particular for the default zero pointer on a nonempty default
tape), the data pointer satisfies `0 ≤ pointer < tape.len()` on entry
and exit of every executed instruction — rendered here as: the run never
performs an out-of-bounds tape access (never panics), and a normal
termination returns a pointer within the final tape.  The per-
instruction preservation is the content of the `step`-level lemma this
proof inducts with. -/
theorem run_pointer_in_bounds (source : List Nat) (p : Program) (config : Config)
    (tape : Option (List Nat)) (pointer : Option Nat)
    (input output : Option (List Nat)) (fuel : Nat)
    (hc : Program.from_source source = some (.ok p))
    (hp : pointer.getD 0 < (tape.getD (List.replicate config.tape_size 0)).length) :
    p.run config tape pointer input output fuel ≠ .panic ∧
    ∀ r out, p.run config tape pointer input output fuel = .ok r out →
      r.pointer < r.tape.length := by
  unfold Program.from_source at hc
  rcases hcc : compile source with _ | r2
  · rw [hcc] at hc
    simp at hc
  rcases r2 with e | ⟨ops, spans⟩
  · rw [hcc] at hc
    simp at hc
  · rw [hcc] at hc
    simp only [Option.some.injEq] at hc
    injection hc with hc2
    subst hc2
    rw [compile] at hcc
    have hinv := compile_go_inv source _ _ _ _ _ _ _ _ _ CInv.empty hcc
    have hlen : ops.length ≤ spans.length := by
      have := hinv.len_eq
      omega
    exact execute_go_no_panic ops spans config hlen fuel _ _ 0 0 input output hp

/-- C1 (witness): the bounds guarantee instantiated for the program
compiled from `+` run on the default 1-cell tape with the default
pointer. -/
theorem run_pointer_in_bounds_witness :
    Program.run ⟨[.Add 1], [⟨0, 1, 1, 1⟩]⟩ ⟨1, none, .Zero, true⟩
      none none none none 3 ≠ .panic ∧
    ∀ r out, Program.run ⟨[.Add 1], [⟨0, 1, 1, 1⟩]⟩ ⟨1, none, .Zero, true⟩
      none none none none 3 = .ok r out → r.pointer < r.tape.length :=
  run_pointer_in_bounds (bytesOf "+") ⟨[.Add 1], [⟨0, 1, 1, 1⟩]⟩ ⟨1, none, .Zero, true⟩
    none none none none 3 (by decide) (by decide)

theorem skip_loop_go_ge (source : List Nat) :
    ∀ fuel depth j lines col, j ≤ (skip_loop_go source fuel depth j lines col).1 := by
  intro fuel
  induction fuel with
  | zero =>
      intro depth j lines col
      rw [skip_loop_go.eq_def]
  | succ f ih =>
      intro depth j lines col
      rw [skip_loop_go.eq_def]
      dsimp only
      split
      · have := ih (if source.getD j 0 = 91 then depth + 1
          else if source.getD j 0 = 93 then depth - 1 else depth) (j + 1)
          (if source.getD j 0 = 10 then lines + 1 else lines)
          ((if source.getD j 0 = 10 then 0 else col) + 1)
        omega
      · exact Nat.le_refl j

theorem ref_close_skip (source : List Nat) :
    ∀ fuel depth j lines col d,
      source.length - j ≤ fuel →
      ref_close_go source (d + depth) j =
        ref_close_go source d (skip_loop_go source fuel depth j lines col).1 := by
  intro fuel
  induction fuel with
  | zero =>
      intro depth j lines col d hf
      rw [skip_loop_go.eq_def]
      dsimp only
      rw [ref_close_go.eq_def, if_neg (by omega)]
      rw [ref_close_go.eq_def, if_neg (by omega)]
  | succ f ih =>
      intro depth j lines col d hf
      rw [skip_loop_go.eq_def]
      dsimp only
      by_cases hcond : j < source.length ∧ 0 < depth
      · rw [if_pos hcond]
        by_cases h91 : source.getD j 0 = 91
        · rw [if_pos h91]
          have hstep : ref_close_go source (d + depth) j =
              ref_close_go source (d + depth + 1) (j + 1) := by
            rw [ref_close_go.eq_def]
            dsimp only
            rw [if_pos hcond.1, if_pos h91]
          rw [hstep]
          have := ih (depth + 1) (j + 1)
            (if source.getD j 0 = 10 then lines + 1 else lines)
            ((if source.getD j 0 = 10 then 0 else col) + 1) d (by omega)
          rw [show d + depth + 1 = d + (depth + 1) by omega]
          rw [this]
        · rw [if_neg h91]
          by_cases h93 : source.getD j 0 = 93
          · rw [if_pos h93]
            have hstep : ref_close_go source (d + depth) j =
                ref_close_go source (d + depth - 1) (j + 1) := by
              rw [ref_close_go.eq_def]
              dsimp only
              rw [if_pos hcond.1, if_neg (by rw [h93]; decide), if_pos h93,
                if_neg (by omega : ¬ d + depth = 0)]
            rw [hstep]
            have := ih (depth - 1) (j + 1)
              (if source.getD j 0 = 10 then lines + 1 else lines)
              ((if source.getD j 0 = 10 then 0 else col) + 1) d (by omega)
            rw [show d + depth - 1 = d + (depth - 1) by omega]
            rw [this]
          · rw [if_neg h93]
            have hstep : ref_close_go source (d + depth) j =
                ref_close_go source (d + depth) (j + 1) := by
              rw [ref_close_go.eq_def]
              dsimp only
              rw [if_pos hcond.1, if_neg h91, if_neg h93]
            rw [hstep]
            exact ih depth (j + 1)
              (if source.getD j 0 = 10 then lines + 1 else lines)
              ((if source.getD j 0 = 10 then 0 else col) + 1) d (by omega)
      · rw [if_neg hcond]
        rcases Nat.lt_or_ge j source.length with hj | hj
        · have hdepth : depth = 0 := by omega
          rw [hdepth]
          simp
        · rw [ref_close_go.eq_def, if_neg (by omega)]
          rw [ref_close_go.eq_def, if_neg (by omega)]
theorem compile_close_iff_go (source : List Nat) :
    ∀ (fuel : Nat) (ops : List Op) (spans : List Span) (stack : List (Nat × Span))
      (i line col k : Nat),
      source.length - i < fuel →
      ((∃ s, compile_go source fuel ops spans stack i line col =
          some (.error (.UnmatchedClose s)) ∧ s.start = k ∧ s.stop = k + 1) ↔
        ref_close_go source stack.length i = some k) := by
  intro fuel
  induction fuel with
  | zero =>
      intro ops spans stack i line col k hf
      exact absurd hf (by omega)
  | succ f ih =>
      intro ops spans stack i line col k hf
      rw [compile_go.eq_def]
      dsimp only
      by_cases hi : i < source.length
      · rw [if_pos hi]
        rw [ref_close_go.eq_def]
        dsimp only
        rw [if_pos hi]
        by_cases h43 : source.getD i 0 = 43
        · rw [if_pos h43, if_neg (by rw [h43]; decide), if_neg (by rw [h43]; decide)]
          exact ih _ _ _ _ _ _ _ (by omega)
        rw [if_neg h43]
        by_cases h45 : source.getD i 0 = 45
        · rw [if_pos h45, if_neg (by rw [h45]; decide), if_neg (by rw [h45]; decide)]
          exact ih _ _ _ _ _ _ _ (by omega)
        rw [if_neg h45]
        by_cases h60 : source.getD i 0 = 60
        · rw [if_pos h60, if_neg (by rw [h60]; decide), if_neg (by rw [h60]; decide)]
          exact ih _ _ _ _ _ _ _ (by omega)
        rw [if_neg h60]
        by_cases h62 : source.getD i 0 = 62
        · rw [if_pos h62, if_neg (by rw [h62]; decide), if_neg (by rw [h62]; decide)]
          exact ih _ _ _ _ _ _ _ (by omega)
        rw [if_neg h62]
        by_cases h46 : source.getD i 0 = 46
        · rw [if_pos h46, if_neg (by rw [h46]; decide), if_neg (by rw [h46]; decide)]
          exact ih _ _ _ _ _ _ _ (by omega)
        rw [if_neg h46]
        by_cases h44 : source.getD i 0 = 44
        · rw [if_pos h44, if_neg (by rw [h44]; decide), if_neg (by rw [h44]; decide)]
          exact ih _ _ _ _ _ _ _ (by omega)
        rw [if_neg h44]
        by_cases h91 : source.getD i 0 = 91
        · rw [if_pos h91, if_pos h91]
          by_cases hdead : is_dead ops = true
          · rw [if_pos hdead]
            have hskip : i + 1 ≤ (skip_loop source (i + 1)).1 :=
              skip_loop_go_ge source source.length 1 (i + 1) 0 0
            rw [ih _ _ _ _ _ _ k (by omega)]
            have hrs := ref_close_skip source source.length 1 (i + 1) 0 0 stack.length
              (by omega)
            rw [skip_loop]
            rw [hrs]
          · rw [if_neg hdead]
            rw [show stack.length + 1 =
              ((ops.length, (⟨i, i + 1, line, col⟩ : Span)) :: stack).length by simp]
            exact ih _ _ _ _ _ _ _ (by omega)
        rw [if_neg h91]
        by_cases h93 : source.getD i 0 = 93
        · rw [if_pos h93, if_neg (by rw [h93]; decide), if_pos h93]
          rcases stack with _ | ⟨⟨start, lss⟩, rest⟩
          · dsimp only
            rw [List.length_nil, if_pos rfl]
            constructor
            · rintro ⟨s, hs, hs1, hs2⟩
              simp only [Option.some.injEq] at hs
              injection hs with hs3
              injection hs3 with hs4
              subst hs4
              simp at hs1
              rw [hs1]
            · intro hk
              injection hk with hk2
              subst hk2
              exact ⟨⟨i, i + 1, line, col⟩, rfl, rfl, rfl⟩
          · dsimp only
            rw [List.length_cons, if_neg (by omega)]
            rw [show rest.length + 1 - 1 = rest.length by omega]
            exact ih _ _ _ _ _ _ _ (by omega)
        rw [if_neg h93]
        by_cases h10 : source.getD i 0 = 10
        · rw [if_pos h10, if_neg h91, if_neg h93]
          refine ih _ _ _ _ _ _ _ ?_
          omega
        rw [if_neg h10, if_neg h91, if_neg h93]
        refine ih _ _ _ _ _ _ _ ?_
        omega
      · rw [if_neg hi]
        rw [ref_close_go.eq_def]
        rw [if_neg hi]
        rcases stack with _ | ⟨⟨start, lss⟩, rest⟩
        · dsimp only
          constructor
          · rintro ⟨s, hs, -, -⟩
            simp at hs
          · intro hk
            simp at hk
        · dsimp only
          constructor
          · rintro ⟨s, hs, -, -⟩
            simp at hs
          · intro hk
            simp at hk

/-- C2 (amended): compile returns `UnmatchedClose` — with the span of
that `]` — exactly when the reference depth-counting scanner of the
claim reads a `]` with no pending `[` (unconditionally; span byte
offsets, since columns are affected by the separate dead-loop column
bug).  The `UnmatchedOpen` half of the claim holds only for brackets the
compiler actually processes: a dead `[` whose matching `]` is missing
silently consumes the rest of the input (see the counterexample). -/
theorem compile_unmatched_close_iff (source : List Nat) (k : Nat) :
    (∃ s, compile source = some (.error (.UnmatchedClose s)) ∧
      s.start = k ∧ s.stop = k + 1) ↔
    ref_unmatched_close source = some k := by
  rw [compile, ref_unmatched_close]
  have h := compile_close_iff_go source (source.length + 1) [] [] [] 0 1 1 k (by omega)
  simpa using h

end Rustfuck
